import Mathlib

/-!
# Memory tracer (`src/core/debug/memtrace.c`, `memtrace.h`)

A shallow embedding of the single-producer/single-consumer trace ring, the
page-subscription bitmap and the event encoder, followed by the properties
proved about them.

Conventions of the embedding.

* `uint32_t` values are natural numbers below `4294967296`; every operation
  of the source that can wrap is written with an explicit `% 4294967296`.
  `uint64_t` values are naturals below `18446744073709551616`.
* A pointer to bytes (`uint8_t *`, `const void *`) is a function from the
  byte offset to the byte stored there.  `mt_buf` is `none` for `NULL`.
* The globals of the translation unit are the fields of `State`; a function
  of the source takes the state and returns the state after the call.  Calls
  run one after another, so the atomic loads and stores are plain reads and
  writes of `mt_head` and `mt_tail`.
* A `size_t` value is a natural number; the `(uint32_t)` casts are
  `% 4294967296`.
* The result of `malloc` is an input of `memtrace_init`.
* `mt_hdr_t` is laid out as on the little-endian hosts the emulator runs on:
  offsets 0, 1, 2, 4, 8 and size 12, with no padding.
-/

namespace Memtrace

/-- Byte memory seen through a pointer: offset to byte. -/
abbrev Mem := Nat → Nat

/-- The static variables of `memtrace.c`. -/
structure State where
  /-- `static uint8_t *mt_buf`, `none` is `NULL`. -/
  mt_buf : Option Mem
  /-- `static uint32_t mt_mask`. -/
  mt_mask : Nat
  /-- `_Atomic(uint32_t) mt_head`, the producer cursor. -/
  mt_head : Nat
  /-- `_Atomic(uint32_t) mt_tail`, the consumer cursor. -/
  mt_tail : Nat
  /-- `static uint64_t mt_dropped`. -/
  mt_dropped : Nat
  /-- `static int mt_enabled`. -/
  mt_enabled : Nat
  /-- `uint64_t memtrace_track_pages[4096/64]`, word index to word. -/
  memtrace_track_pages : Nat → Nat

/-- Zero-initialised statics: the state before any call. -/
def State.zero : State where
  mt_buf := none
  mt_mask := 0
  mt_head := 0
  mt_tail := 0
  mt_dropped := 0
  mt_enabled := 0
  memtrace_track_pages := fun _ => 0

def MT_EVT_BYTE : Nat := 1
def MT_EVT_RUN : Nat := 2
def MT_EVT_ERASE : Nat := 3

/-- `mt_capacity`: `mt_mask + 1u`. -/
def mt_capacity (s : State) : Nat := (s.mt_mask + 1) % 4294967296

/-- `mt_used_relaxed`: `h - t` on `uint32_t`. -/
def mt_used_relaxed (h t : Nat) : Nat := (h + 4294967296 - t) % 4294967296

/-- `roundup_pow2_u32`. -/
def roundup_pow2_u32 (v : Nat) : Nat :=
  if v < 2 then 2
  else
    let v := v - 1
    let v := v ||| (v >>> 1)
    let v := v ||| (v >>> 2)
    let v := v ||| (v >>> 4)
    let v := v ||| (v >>> 8)
    let v := v ||| (v >>> 16)
    (v + 1) % 4294967296

/-- `memtrace_init`; `alloc` is what `malloc(cap)` returns. -/
def memtrace_init (s : State) (capacity_bytes : Nat) (alloc : Nat → Option Mem) : State :=
  match s.mt_buf with
  | some _ => s
  | none =>
    let cap := roundup_pow2_u32
      ((if capacity_bytes ≠ 0 then capacity_bytes else 1048576) % 4294967296)
    match alloc cap with
    | none => { s with mt_buf := none, mt_mask := 0 }
    | some m =>
      { mt_buf := some m
        mt_mask := (cap + 4294967296 - 1) % 4294967296
        mt_head := 0
        mt_tail := 0
        mt_dropped := 0
        memtrace_track_pages := fun _ => 0
        mt_enabled := 0 }

/-- `memtrace_free`. -/
def memtrace_free (s : State) : State :=
  { s with mt_buf := none, mt_mask := 0, mt_head := 0, mt_tail := 0,
           mt_dropped := 0, mt_enabled := 0 }

/-- `memtrace_enable`. -/
def memtrace_enable (s : State) (on' : Bool) : State :=
  { s with mt_enabled := if on' then 1 else 0 }

/-- `memtrace_is_enabled`. -/
def memtrace_is_enabled (s : State) : Bool := s.mt_enabled != 0

/-- `memtrace_clear`. -/
def memtrace_clear (s : State) : State :=
  let h := s.mt_head
  { s with mt_tail := h, mt_dropped := 0 }

/-- `memtrace_dropped`. -/
def memtrace_dropped (s : State) : Nat := s.mt_dropped

/-- `memtrace_subscribe_all`: `memset` of the 64 words. -/
def memtrace_subscribe_all (s : State) (enable : Bool) : State :=
  { s with memtrace_track_pages := fun w =>
      if w < 64 then (if enable then 18446744073709551615 else 0)
      else s.memtrace_track_pages w }

/-- `~x` on `uint64_t`. -/
def not64 (x : Nat) : Nat := 18446744073709551615 - x % 18446744073709551616

/-- Store into one array slot. -/
def setWord (pages : Nat → Nat) (w v : Nat) : Nat → Nat :=
  fun j => if j = w then v else pages j

/-- The `for (w = w0 + 1; w < w1; ++w)` loop of `memtrace_subscribe_range`,
started at `w`; `none` when the iteration budget runs out. -/
def subscribe_fill (fill w1 : Nat) : Nat → Nat → (Nat → Nat) → Option (Nat → Nat)
  | 0, _, _ => none
  | fuel + 1, w, pages =>
    if w < w1 then subscribe_fill fill w1 fuel (w + 1) (setWord pages w fill)
    else some pages

/-- `memtrace_subscribe_range`. -/
def memtrace_subscribe_range (s : State) (low high : Nat) (enable : Bool) : State :=
  let p0 := (low >>> 12) &&& 0xFFF
  let p1 := (high >>> 12) &&& 0xFFF
  let w0 := p0 >>> 6
  let w1 := p1 >>> 6
  let b0 := p0 &&& 63
  let b1 := p1 &&& 63
  let fill := if enable then 18446744073709551615 else 0
  let pages := s.memtrace_track_pages
  if w0 = w1 then
    let start_mask := (18446744073709551615 <<< b0) % 18446744073709551616
    let end_mask :=
      if b1 = 63 then 18446744073709551615
      else ((1 <<< (b1 + 1)) % 18446744073709551616 + 18446744073709551616 - 1)
             % 18446744073709551616
    let mask := start_mask &&& end_mask
    if enable then { s with memtrace_track_pages := setWord pages w0 (pages w0 ||| mask) }
    else { s with memtrace_track_pages := setWord pages w0 (pages w0 &&& not64 mask) }
  else
    let mask0 := (18446744073709551615 <<< b0) % 18446744073709551616
    let pages1 :=
      if enable then setWord pages w0 (pages w0 ||| mask0)
      else setWord pages w0 (pages w0 &&& not64 mask0)
    let pages2 :=
      match subscribe_fill fill w1 65 ((w0 + 1) % 4294967296) pages1 with
      | some q => q
      | none => pages1
    let mask1 :=
      if b1 = 63 then 18446744073709551615
      else ((1 <<< (b1 + 1)) % 18446744073709551616 + 18446744073709551616 - 1)
             % 18446744073709551616
    if enable then { s with memtrace_track_pages := setWord pages2 w1 (pages2 w1 ||| mask1) }
    else { s with memtrace_track_pages := setWord pages2 w1 (pages2 w1 &&& not64 mask1) }

/-- `memtrace_is_page_tracked` (`memtrace.h`). -/
def memtrace_is_page_tracked (s : State) (addr : Nat) : Bool :=
  let p := (addr >>> 12) &&& 0xFFF
  (s.memtrace_track_pages (p >>> 6) &&& ((1 <<< (p &&& 63)) % 18446744073709551616)) != 0

/-- `memcpy(dst + d, src, n)`: the bytes `d .. d + n - 1` of `dst` become the
first `n` bytes of `src`. -/
def memcpy (dst : Mem) (d : Nat) (src : Mem) (n : Nat) : Mem :=
  fun j => if d ≤ j ∧ j < d + n then src (j - d) else dst j

/-- `mt_copy_in` on the backing store `buf`, with `mt_mask = mask`. -/
def mt_copy_in (mask : Nat) (buf : Mem) (pos : Nat) (src : Mem) (len : Nat) : Mem :=
  let cap := (mask + 1) % 4294967296
  let i := pos &&& mask
  let first := if (i + len) % 4294967296 ≤ cap then len else (cap + 4294967296 - i) % 4294967296
  let buf1 := memcpy buf i src first
  if first < len then
    memcpy buf1 0 (fun k => src (first + k)) ((len + 4294967296 - first) % 4294967296)
  else buf1

/-- `mt_try_write`: the returned number is the `int` result. -/
def mt_try_write (s : State) (src : Mem) (len : Nat) : Nat × State :=
  match s.mt_buf with
  | none => (0, s)
  | some buf =>
    let t := s.mt_tail
    let h := s.mt_head
    let cap := mt_capacity s
    let free_bytes := (cap + 4294967296 - mt_used_relaxed h t) % 4294967296
    if free_bytes ≤ len then
      (0, { s with mt_dropped := (s.mt_dropped + 1) % 18446744073709551616 })
    else
      (1, { s with mt_buf := some (mt_copy_in s.mt_mask buf h src len),
                   mt_head := (h + len) % 4294967296 })

/-- The `n` bytes read from `buf + i`. -/
def readBytes (buf : Mem) (i n : Nat) : List Nat :=
  (List.range n).map (fun k => buf (i + k))

/-- What `memtrace_drain` hands back: the return value, the bytes stored to
`dst[0 .. ret)` in order, and the state afterwards. -/
structure Drained where
  ret : Nat
  dst : List Nat
  st : State

/-- `memtrace_drain`. -/
def memtrace_drain (s : State) (max_bytes : Nat) : Drained :=
  match s.mt_buf with
  | none => { ret := 0, dst := [], st := s }
  | some buf =>
    let h := s.mt_head
    let t := s.mt_tail
    let cap := mt_capacity s
    let avail := mt_used_relaxed h t
    if avail = 0 then { ret := 0, dst := [], st := s }
    else
      let want := (if max_bytes < avail then max_bytes else avail) % 4294967296
      let i := t &&& s.mt_mask
      let first :=
        if (i + want) % 4294967296 ≤ cap then want else (cap + 4294967296 - i) % 4294967296
      let part1 := readBytes buf i first
      let part2 :=
        if first < want then readBytes buf 0 ((want + 4294967296 - first) % 4294967296) else []
      { ret := want, dst := part1 ++ part2, st := { s with mt_tail := (t + want) % 4294967296 } }

/-- The 12 bytes of an `mt_hdr_t` in memory. -/
def hdr_bytes (type pad len addr cycles : Nat) : List Nat :=
  [type % 256, pad % 256,
   len % 256, len / 256 % 256,
   addr % 256, addr / 256 % 256, addr / 65536 % 256, addr / 16777216 % 256,
   cycles % 256, cycles / 256 % 256, cycles / 65536 % 256, cycles / 16777216 % 256]

/-- A local byte array seen as a pointer. -/
def ptr (l : List Nat) : Mem := fun k => l.getD k 0

/-- `memtrace_emit_byte`. -/
def memtrace_emit_byte (s : State) (addr value cycles : Nat) : State :=
  if s.mt_enabled = 0 then s
  else
    let buf := hdr_bytes MT_EVT_BYTE 0 1 addr cycles ++ [value % 256]
    (mt_try_write s (ptr buf) 13).2

/-- The `while (off < len)` loop of `memtrace_emit_run`, entered with the
locals `off` and `h_local`.  `none` when the iteration budget runs out or when
a chunk would be copied through a `NULL` `mt_buf`. -/
def emit_run_loop (addr : Nat) (src : Mem) (len cycles : Nat) :
    Nat → Nat → Nat → State → Option State
  | 0, _, _, _ => none
  | fuel + 1, off, h_local, s =>
    if off < len then
      let n := if len - off > 1024 then 1024 else len - off
      let h := hdr_bytes MT_EVT_RUN 0 (n % 65536) ((addr + off) % 4294967296) cycles
      let t := s.mt_tail
      let cap := mt_capacity s
      let need := (12 + n) % 4294967296
      let free_bytes := (cap + 4294967296 - mt_used_relaxed h_local t) % 4294967296
      if free_bytes ≤ need then
        some { s with mt_dropped := (s.mt_dropped + 1) % 18446744073709551616 }
      else
        match s.mt_buf with
        | none => none
        | some buf =>
          let buf1 := mt_copy_in s.mt_mask buf h_local (ptr h) 12
          let h_local1 := (h_local + 12) % 4294967296
          let buf2 := mt_copy_in s.mt_mask buf1 h_local1 (fun k => src (off + k)) n
          let h_local2 := (h_local1 + n) % 4294967296
          emit_run_loop addr src len cycles fuel (off + n) h_local2
            { s with mt_buf := some buf2 }
    else some { s with mt_head := h_local }

/-- `memtrace_emit_run`.  The loop gets `len + 1` iterations, one more than it
can use (`emit_run_loop_total`).  A copy through a `NULL` `mt_buf`, which C
leaves undefined, is rendered as leaving the state as it is; it is not reached
from an unallocated state as `memtrace_free` or a failed `memtrace_init` leave
it, where the first chunk is already rejected. -/
def memtrace_emit_run (s : State) (addr : Nat) (src : Mem) (len cycles : Nat) : State :=
  if s.mt_enabled = 0 ∨ len = 0 then s
  else
    match emit_run_loop addr src len cycles (len + 1) 0 s.mt_head s with
    | some s' => s'
    | none => s

/-- `memtrace_emit_erase`. -/
def memtrace_emit_erase (s : State) (addr len cycles : Nat) : State :=
  if s.mt_enabled = 0 then s
  else
    let h := hdr_bytes MT_EVT_ERASE 0 ((len &&& 0xFFFF) % 65536) addr cycles
    (mt_try_write s (ptr h) 12).2

/-! ## Notions used to state the properties -/

/-- Free space as `mt_try_write` computes it: `cap - mt_used_relaxed(h, t)` on
`uint32_t`. -/
def mt_free (s : State) : Nat :=
  (mt_capacity s + 4294967296 - mt_used_relaxed s.mt_head s.mt_tail) % 4294967296

/-- The byte at logical offset `x` from cursor `t` of a ring with index mask
`mask`. -/
def ringByte (mask : Nat) (buf : Mem) (t x : Nat) : Nat :=
  buf (((t + x) % 4294967296) &&& mask)

/-- The `n` bytes at logical offsets `0 .. n - 1` from cursor `t`. -/
def ringList (mask : Nat) (buf : Mem) (t n : Nat) : List Nat :=
  (List.range n).map (ringByte mask buf t)

/-- The state holds an allocated ring of capacity `2 ^ k` bytes whose cursors
satisfy the ring invariant `head - tail ≤ capacity` (unsigned difference). -/
structure Ring (s : State) (k : Nat) (buf : Mem) : Prop where
  hbuf : s.mt_buf = some buf
  hk1 : 1 ≤ k
  hk : k ≤ 31
  hmask : s.mt_mask = 2 ^ k - 1
  hhead : s.mt_head < 4294967296
  htail : s.mt_tail < 4294967296
  hused : mt_used_relaxed s.mt_head s.mt_tail ≤ 2 ^ k

/-- The buffered bytes in write order: logical positions `tail .. head - 1`. -/
def visible (s : State) : List Nat :=
  match s.mt_buf with
  | none => []
  | some buf => ringList s.mt_mask buf s.mt_tail (mt_used_relaxed s.mt_head s.mt_tail)

/-! ### Wire format -/

/-- ByteWrite record on the wire. -/
def byte_record (addr value cycles : Nat) : List Nat :=
  hdr_bytes MT_EVT_BYTE 0 1 addr cycles ++ [value % 256]

/-- Erase record on the wire. -/
def erase_record (addr len cycles : Nat) : List Nat :=
  hdr_bytes MT_EVT_ERASE 0 (len % 65536) addr cycles

/-- Number of Run records a run of `len` bytes is split into. -/
def run_chunks (len : Nat) : Nat := (len + 1023) / 1024

/-- Payload length of Run record `i` of a run of `len` bytes. -/
def run_chunk_len (len i : Nat) : Nat := min 1024 (len - 1024 * i)

/-- Run record `i` on the wire: header, then its slice of the run. -/
def run_record (addr : Nat) (src : Mem) (len cycles i : Nat) : List Nat :=
  hdr_bytes MT_EVT_RUN 0 (run_chunk_len len i) ((addr + 1024 * i) % 4294967296) cycles
    ++ (List.range (run_chunk_len len i)).map (fun j => src (1024 * i + j))

/-- All Run records of a run, in order. -/
def run_records (addr : Nat) (src : Mem) (len cycles : Nat) : List Nat :=
  (List.range (run_chunks len)).flatMap (run_record addr src len cycles)

/-- Bytes that records `i, i + 1, ...` of the run occupy. -/
def run_rest (len i : Nat) : Nat := (len - 1024 * i) + 12 * (run_chunks len - i)

/-- The fields of an `mt_hdr_t`. -/
structure Hdr where
  type : Nat
  reserved : Nat
  length : Nat
  address : Nat
  cycles : Nat
  deriving DecidableEq

/-- Reads a header back from its first 12 bytes, little-endian:
`{type:u8, reserved:u8, length:u16, address:u32, cycles:u32}`. -/
def parse_hdr (b : List Nat) : Hdr where
  type := b.getD 0 0
  reserved := b.getD 1 0
  length := b.getD 2 0 + 256 * b.getD 3 0
  address := b.getD 4 0 + 256 * b.getD 5 0 + 65536 * b.getD 6 0 + 16777216 * b.getD 7 0
  cycles := b.getD 8 0 + 256 * b.getD 9 0 + 65536 * b.getD 10 0 + 16777216 * b.getD 11 0

/-- The payload that follows the header of a record. -/
def parse_payload (b : List Nat) : List Nat := (b.drop 12).take (parse_hdr b).length

/-! ### Histories of calls -/

/-- The calls a producer and a consumer make on the ring. -/
inductive Op where
  | emitByte (addr value cycles : Nat)
  | emitRun (addr : Nat) (src : Mem) (len cycles : Nat)
  | emitErase (addr len cycles : Nat)
  | drain (max_bytes : Nat)

/-- The serialised record(s) of an emit call. -/
def Op.record : Op → List Nat
  | .emitByte addr value cycles => byte_record addr value cycles
  | .emitRun addr src len cycles => run_records addr src len cycles
  | .emitErase addr len cycles => erase_record addr len cycles
  | .drain _ => []

/-- The state after a call. -/
def Op.next (s : State) : Op → State
  | .emitByte addr value cycles => memtrace_emit_byte s addr value cycles
  | .emitRun addr src len cycles => memtrace_emit_run s addr src len cycles
  | .emitErase addr len cycles => memtrace_emit_erase s addr len cycles
  | .drain max_bytes => (memtrace_drain s max_bytes).st

/-- The bytes a call hands to the consumer. -/
def Op.output (s : State) : Op → List Nat
  | .drain max_bytes => (memtrace_drain s max_bytes).dst
  | _ => []

/-- A history: the current state, all bytes drained so far, and the records of
all emits accepted so far (an emit is accepted when it publishes a new head). -/
structure Log where
  st : State
  drained : List Nat
  accepted : List Nat

/-- One more call. -/
def Log.step (l : Log) (op : Op) : Log where
  st := op.next l.st
  drained := l.drained ++ op.output l.st
  accepted := if (op.next l.st).mt_head = l.st.mt_head then l.accepted
              else l.accepted ++ op.record

/-- The calls of `ops` executed one after another from `s`. -/
def run_ops (s : State) (ops : List Op) : Log :=
  ops.foldl Log.step { st := s, drained := [], accepted := [] }

/-- Invariant of a history on a ring of capacity `2 ^ k`. -/
def Log.Inv (k : Nat) (l : Log) : Prop :=
  (∃ buf, Ring l.st k buf) ∧ l.drained ++ visible l.st = l.accepted

/-! ### Pages of the subscription bitmap -/

/-- Page index of an address: `(x >> 12) & 0xFFF`. -/
def page (x : Nat) : Nat := (x >>> 12) &&& 0xFFF

/-- Sets or clears the bit of one page, the reference for the range update. -/
def set_page (pages : Nat → Nat) (p : Nat) (enable : Bool) : Nat → Nat :=
  setWord pages (p / 64)
    (if enable then pages (p / 64) ||| 2 ^ (p % 64) else pages (p / 64) &&& not64 (2 ^ (p % 64)))

/-- Sets or clears the pages `p0, p0 + 1, ..., p0 + n - 1` one by one. -/
def set_pages_each (pages : Nat → Nat) (p0 n : Nat) (enable : Bool) : Nat → Nat :=
  (List.range' p0 n).foldl (fun q p => set_page q p enable) pages

/-! ### States and calls used as examples -/

/-- A 32-byte ring, enabled, empty, with both cursors six below `2 ^ 32`. -/
def ring32_wrapping : State :=
  { State.zero with mt_buf := some (fun _ => 0), mt_mask := 31, mt_enabled := 1,
                    mt_head := 4294967290, mt_tail := 4294967290 }

/-- A byte write, a short drain, a run, a rejected erase, a full drain, a byte write. -/
def example_calls : List Op :=
  [.emitByte 0x1234 0xAB 100, .drain 5, .emitRun 0xD00000 (fun j => j + 1) 3 7,
   .emitErase 0x20000 70000 9, .drain 64, .emitByte 1 2 3]

/-- A 32-byte ring, enabled and empty. -/
def ring32 : State :=
  { State.zero with mt_buf := some (fun _ => 0), mt_mask := 31, mt_enabled := 1 }

/-- A 32-byte ring, enabled, holding 20 bytes: 12 bytes free. -/
def ring32_used20 : State :=
  { State.zero with mt_buf := some (fun _ => 0), mt_mask := 31, mt_enabled := 1,
                    mt_head := 20, mt_tail := 0, mt_dropped := 4 }

/-- The 32-byte ring with tracing switched off. -/
def ring32_off : State := memtrace_enable ring32 false

/-- A 4096-byte ring, enabled, holding 1100 bytes. -/
def ring4096 : State :=
  { State.zero with mt_buf := some (fun j => j % 251), mt_mask := 4095, mt_enabled := 1,
                    mt_head := 1100, mt_tail := 0 }

/-- A 32-byte ring holding the 20 bytes at array indices 24 .. 31 and 0 .. 11. -/
def ring32_wrapped : State :=
  { State.zero with mt_buf := some (fun j => 100 + j), mt_mask := 31, mt_enabled := 1,
                    mt_head := 44, mt_tail := 24 }

/-- An allocator that always returns a zeroed block. -/
def alloc_ok : Nat → Option Mem := fun _ => some (fun _ => 0)

/-- The state after `n` calls `emitByte(0, 0, 0)` in a row, with no drain. -/
def emit_byte_times (s : State) : Nat → State
  | 0 => s
  | n + 1 => memtrace_emit_byte (emit_byte_times s n) 0 0 0

/-- `init(0)` on the never-initialised state, then tracing enabled. -/
def saturation_start (alloc : Nat → Option Mem) : State :=
  memtrace_enable (memtrace_init State.zero 0 alloc) true

/-- Every call of the interface that can follow `init`: the ring calls of `Op`
and the control calls. -/
inductive Call where
  | ring (op : Op)
  | clear
  | enable (on' : Bool)
  | subscribeAll (enable : Bool)
  | subscribeRange (low high : Nat) (enable : Bool)

/-- The state after a call. -/
def Call.next (s : State) : Call → State
  | .ring op => op.next s
  | .clear => memtrace_clear s
  | .enable on' => memtrace_enable s on'
  | .subscribeAll e => memtrace_subscribe_all s e
  | .subscribeRange low high e => memtrace_subscribe_range s low high e

/-- The calls of `calls` executed one after another from `s`. -/
def run_calls (s : State) (calls : List Call) : State := calls.foldl Call.next s

/-- Calls of every kind, among them a byte write, a run that is rejected and a
drain. -/
def example_all_calls : List Call :=
  [.enable true, .subscribeRange 0x3F000 0x81000 true, .ring (.emitByte 0x1234 0xAB 100),
   .ring (.emitRun 0xD00000 (fun j => j + 1) 3 7), .ring (.emitErase 0x20000 70000 9),
   .ring (.drain 5), .clear, .subscribeAll false, .ring (.emitByte 1 2 3), .enable false]

/-! ## Arithmetic of ring positions -/

theorem pow_le_u31 {k : Nat} (hk : k ≤ 31) : 2 ^ k ≤ 2147483648 := by
  have h : 2 ^ k ≤ 2 ^ 31 := Nat.pow_le_pow_right (by norm_num) hk
  norm_num at h
  exact h

theorem two_le_pow {k : Nat} (hk : 1 ≤ k) : 2 ≤ 2 ^ k := by
  have h : 2 ^ 1 ≤ 2 ^ k := Nat.pow_le_pow_right (by norm_num) hk
  simpa using h

theorem pow_dvd_u32 {k : Nat} (hk : k ≤ 31) : 2 ^ k ∣ 4294967296 := by
  have h : 2 ^ k ∣ 2 ^ 32 := Nat.pow_dvd_pow 2 (by omega)
  norm_num at h
  exact h

/-- Reducing modulo `2^32` first does not change a residue modulo the capacity. -/
theorem mod_u32_mod {C : Nat} (hC : C ∣ 4294967296) (x : Nat) :
    x % 4294967296 % C = x % C := Nat.mod_mod_of_dvd x hC

/-- Position `p + d` of the ring, for a step `d` of at most one lap. -/
theorem add_mod_cases {C : Nat} (p d : Nat) (hd : d ≤ C) (hC : 0 < C) :
    (p + d) % C = if p % C + d < C then p % C + d else p % C + d - C := by
  have hp : p % C < C := Nat.mod_lt _ hC
  rw [Nat.add_mod]
  rcases Nat.lt_or_ge d C with hlt | hge
  · rw [Nat.mod_eq_of_lt hlt]
    split
    · rename_i h; exact Nat.mod_eq_of_lt h
    · rename_i h
      rw [Nat.mod_eq_sub_mod (by omega)]
      exact Nat.mod_eq_of_lt (by omega)
  · have : d = C := by omega
    subst this
    have h : ¬ (p % d + d < d) := by omega
    simp [h]

/-- Two offsets from the same base that are less than a lap apart fall on
different slots. -/
theorem slot_ne {C : Nat} (t x y : Nat) (hx : x < C) (hy : y < C)
    (hxy : x ≠ y) : (t + x) % C ≠ (t + y) % C := by
  intro h
  have h1 : (t + x) ≡ (t + y) [MOD C] := h
  have h2 : x ≡ y [MOD C] := Nat.ModEq.add_left_cancel' t h1
  exact hxy (Nat.ModEq.eq_of_lt_of_lt h2 hx hy)

theorem slot_shift {C : Nat} (hC : C ∣ 4294967296) (t x d : Nat) :
    ((t + x) % 4294967296 + d) % C = (t + (x + d)) % C := by
  rw [Nat.add_mod, mod_u32_mod hC, ← Nat.add_mod, Nat.add_assoc]

theorem head_eq_tail_add (h t : Nat) (hh : h < 4294967296) (ht : t < 4294967296) :
    h = (t + mt_used_relaxed h t) % 4294967296 := by
  unfold mt_used_relaxed
  omega

theorem used_tail_add (t x : Nat) (ht : t < 4294967296) (hx : x < 4294967296) :
    mt_used_relaxed ((t + x) % 4294967296) t = x := by
  unfold mt_used_relaxed
  omega

theorem used_after_drain (h t w : Nat) (hh : h < 4294967296) (ht : t < 4294967296)
    (hw : w ≤ mt_used_relaxed h t) :
    mt_used_relaxed h ((t + w) % 4294967296) = mt_used_relaxed h t - w := by
  unfold mt_used_relaxed at hw ⊢
  omega

/-! ## `mt_copy_in` and the logical view of the ring -/

/-- `mt_copy_in` with the index and capacity arithmetic carried out. -/
theorem copy_in_unfold (C i : Nat) (hC2 : 2 ≤ C) (hC31 : C ≤ 2147483648) (hi : i < C)
    (buf src : Mem) (len : Nat) (hlen : len ≤ C) (pos : Nat) (hpos : pos &&& (C - 1) = i) :
    mt_copy_in (C - 1) buf pos src len =
      if i + len ≤ C then memcpy buf i src len
      else memcpy (memcpy buf i src (C - i)) 0 (fun k => src (C - i + k)) (len - (C - i)) := by
  unfold mt_copy_in
  have hcap : (C - 1 + 1) % 4294967296 = C := by omega
  simp only [hcap, hpos]
  by_cases hfit : i + len ≤ C
  · have h1 : (i + len) % 4294967296 ≤ C := by omega
    simp only [h1, hfit, if_true, lt_irrefl, if_false]
  · have h1 : ¬ (i + len) % 4294967296 ≤ C := by omega
    have h2 : (C + 4294967296 - i) % 4294967296 = C - i := by omega
    have h3 : C - i < len := by omega
    have h4 : (len + 4294967296 - (C - i)) % 4294967296 = len - (C - i) := by omega
    simp only [h1, hfit, if_false, h2, h3, if_true, h4]

theorem copy_in_hit (k : Nat) (hk1 : 1 ≤ k) (hk : k ≤ 31) (buf : Mem) (pos : Nat) (src : Mem)
    (len d : Nat) (hlen : len ≤ 2 ^ k) (hd : d < len) :
    mt_copy_in (2 ^ k - 1) buf pos src len ((pos + d) % 2 ^ k) = src d := by
  have hC2 := two_le_pow hk1
  have hC31 := pow_le_u31 hk
  have hi : pos % 2 ^ k < 2 ^ k := Nat.mod_lt _ (by omega)
  rw [copy_in_unfold (2 ^ k) (pos % 2 ^ k) hC2 hC31 hi buf src len hlen pos
        (Nat.and_pow_two_sub_one_eq_mod pos k),
      add_mod_cases pos d (by omega) (by omega)]
  generalize pos % 2 ^ k = i at hi ⊢
  generalize 2 ^ k = C at *
  unfold memcpy
  by_cases hfit : i + len ≤ C
  · have h1 : i + d < C := by omega
    have h2 : i ≤ i + d ∧ i + d < i + len := by omega
    simp only [hfit, h1, h2, if_true, and_self]
    congr 1; omega
  · by_cases hd1 : i + d < C
    · have h2 : ¬ (0 ≤ i + d ∧ i + d < 0 + (len - (C - i))) := by omega
      have h3 : i ≤ i + d ∧ i + d < i + (C - i) := by omega
      simp only [hfit, hd1, h2, h3, if_true, if_false, and_self]
      congr 1; omega
    · have h2 : 0 ≤ i + d - C ∧ i + d - C < 0 + (len - (C - i)) := by omega
      simp only [hfit, hd1, h2, if_true, if_false, and_self]
      congr 1; omega

theorem copy_in_miss (k : Nat) (hk1 : 1 ≤ k) (hk : k ≤ 31) (buf : Mem) (pos : Nat) (src : Mem)
    (len j : Nat) (hlen : len ≤ 2 ^ k) (hj : ∀ d, d < len → (pos + d) % 2 ^ k ≠ j) :
    mt_copy_in (2 ^ k - 1) buf pos src len j = buf j := by
  have hC2 := two_le_pow hk1
  have hC31 := pow_le_u31 hk
  have hj' : ∀ d, d < len →
      (if pos % 2 ^ k + d < 2 ^ k then pos % 2 ^ k + d else pos % 2 ^ k + d - 2 ^ k) ≠ j := by
    intro d hd
    rw [← add_mod_cases pos d (by omega) (by omega)]
    exact hj d hd
  have hi : pos % 2 ^ k < 2 ^ k := Nat.mod_lt _ (by omega)
  rw [copy_in_unfold (2 ^ k) (pos % 2 ^ k) hC2 hC31 hi buf src len hlen pos
        (Nat.and_pow_two_sub_one_eq_mod pos k)]
  clear hj
  generalize pos % 2 ^ k = i at hi hj' ⊢
  generalize 2 ^ k = C at *
  unfold memcpy
  by_cases hfit : i + len ≤ C
  · simp only [hfit, if_true]
    by_cases hin : i ≤ j ∧ j < i + len
    · exfalso
      have h := hj' (j - i) (by omega)
      rw [if_pos (by omega)] at h
      omega
    · rw [if_neg hin]
  · simp only [hfit, if_false]
    by_cases hin2 : 0 ≤ j ∧ j < 0 + (len - (C - i))
    · exfalso
      have h := hj' (j + (C - i)) (by omega)
      rw [if_neg (by omega)] at h
      omega
    · rw [if_neg hin2]
      by_cases hin : i ≤ j ∧ j < i + (C - i)
      · exfalso
        have h := hj' (j - i) (by omega)
        rw [if_pos (by omega)] at h
        omega
      · rw [if_neg hin]

theorem ringByte_copy_in (k : Nat) (hk1 : 1 ≤ k) (hk : k ≤ 31) (buf src : Mem)
    (t x len y : Nat) (hx : x + len ≤ 2 ^ k) (hy : y < 2 ^ k) :
    ringByte (2 ^ k - 1) (mt_copy_in (2 ^ k - 1) buf ((t + x) % 4294967296) src len) t y
      = if x ≤ y ∧ y < x + len then src (y - x) else ringByte (2 ^ k - 1) buf t y := by
  have hdvd := pow_dvd_u32 hk
  unfold ringByte
  rw [Nat.and_pow_two_sub_one_eq_mod, mod_u32_mod hdvd]
  by_cases hin : x ≤ y ∧ y < x + len
  · rw [if_pos hin]
    have h := copy_in_hit k hk1 hk buf ((t + x) % 4294967296) src len (y - x) (by omega) (by omega)
    rw [slot_shift hdvd] at h
    have e : x + (y - x) = y := by omega
    rw [e] at h
    exact h
  · rw [if_neg hin]
    apply copy_in_miss k hk1 hk buf _ src len _ (by omega)
    intro d hd
    rw [slot_shift hdvd]
    exact slot_ne t (x + d) y (by omega) hy (by omega)

theorem ringList_length (mask : Nat) (buf : Mem) (t n : Nat) :
    (ringList mask buf t n).length = n := by
  simp [ringList]

/-- A copy placed at logical offsets `x .. x + len - 1` leaves the first `n ≤ x`
logical bytes as they were. -/
theorem ringList_copy_in_before (k : Nat) (hk1 : 1 ≤ k) (hk : k ≤ 31) (buf src : Mem)
    (t x len n : Nat) (hx : x + len ≤ 2 ^ k) (hn : n ≤ x) :
    ringList (2 ^ k - 1) (mt_copy_in (2 ^ k - 1) buf ((t + x) % 4294967296) src len) t n
      = ringList (2 ^ k - 1) buf t n := by
  unfold ringList
  apply List.map_congr_left
  intro y hy
  rw [List.mem_range] at hy
  rw [ringByte_copy_in k hk1 hk buf src t x len y hx (by omega), if_neg (by omega)]

/-- A copy placed right after the first `x` logical bytes appends its source. -/
theorem ringList_copy_in_append (k : Nat) (hk1 : 1 ≤ k) (hk : k ≤ 31) (buf src : Mem)
    (t x len : Nat) (hx : x + len ≤ 2 ^ k) :
    ringList (2 ^ k - 1) (mt_copy_in (2 ^ k - 1) buf ((t + x) % 4294967296) src len) t (x + len)
      = ringList (2 ^ k - 1) buf t x ++ (List.range len).map src := by
  unfold ringList
  rw [List.range_add, List.map_append, List.map_map]
  congr 1
  · apply List.map_congr_left
    intro y hy
    rw [List.mem_range] at hy
    rw [ringByte_copy_in k hk1 hk buf src t x len y hx (by omega), if_neg (by omega)]
  · apply List.map_congr_left
    intro y hy
    rw [List.mem_range] at hy
    simp only [Function.comp]
    rw [ringByte_copy_in k hk1 hk buf src t x len (x + y) hx (by omega), if_pos (by omega)]
    congr 1; omega

theorem ringByte_direct (k : Nat) (hk1 : 1 ≤ k) (hk : k ≤ 31) (buf : Mem) (t y : Nat)
    (hy : y ≤ 2 ^ k) :
    ringByte (2 ^ k - 1) buf t y
      = buf (if t % 2 ^ k + y < 2 ^ k then t % 2 ^ k + y else t % 2 ^ k + y - 2 ^ k) := by
  have h2 := two_le_pow hk1
  unfold ringByte
  rw [Nat.and_pow_two_sub_one_eq_mod, mod_u32_mod (pow_dvd_u32 hk),
    add_mod_cases t y hy (by omega)]

theorem ringByte_shift (mask : Nat) (buf : Mem) (t w y : Nat) :
    ringByte mask buf ((t + w) % 4294967296) y = ringByte mask buf t (w + y) := by
  unfold ringByte
  rw [Nat.mod_add_mod, Nat.add_assoc]

theorem ringList_take (mask : Nat) (buf : Mem) (t n m : Nat) :
    (ringList mask buf t n).take m = ringList mask buf t (min m n) := by
  unfold ringList
  rw [← List.map_take, List.take_range]

theorem ringList_drop (mask : Nat) (buf : Mem) (t n w : Nat) :
    (ringList mask buf t n).drop w = ringList mask buf ((t + w) % 4294967296) (n - w) := by
  apply List.ext_getElem
  · simp [ringList]
  · intro i h1 h2
    simp [ringList, ringByte_shift]

/-! ## Rings -/

theorem Ring.capacity {s : State} {k : Nat} {buf : Mem} (r : Ring s k buf) :
    mt_capacity s = 2 ^ k := by
  have h2 := two_le_pow r.hk1
  have h31 := pow_le_u31 r.hk
  unfold mt_capacity
  rw [r.hmask]
  omega

theorem Ring.visible_eq {s : State} {k : Nat} {buf : Mem} (r : Ring s k buf) :
    visible s = ringList (2 ^ k - 1) buf s.mt_tail (mt_used_relaxed s.mt_head s.mt_tail) := by
  unfold visible
  rw [r.hbuf, r.hmask]

theorem Ring.free_eq {s : State} {k : Nat} {buf : Mem} (r : Ring s k buf) :
    mt_free s = 2 ^ k - mt_used_relaxed s.mt_head s.mt_tail := by
  have h31 := pow_le_u31 r.hk
  have hu := r.hused
  unfold mt_free
  rw [r.capacity]
  omega

/-- On a state that satisfies the ring invariant the free space computed on
`uint32_t` is the plain difference `capacity - (head - tail)`. -/
theorem mt_free_eq_sub (s : State)
    (h : mt_used_relaxed s.mt_head s.mt_tail ≤ mt_capacity s) :
    mt_free s = mt_capacity s - mt_used_relaxed s.mt_head s.mt_tail := by
  have hc : mt_capacity s < 4294967296 := Nat.mod_lt _ (by norm_num)
  unfold mt_free
  omega

theorem State.with_buf_self (s : State) (buf : Mem) (h : s.mt_buf = some buf) :
    { s with mt_buf := some buf } = s := by
  cases s
  simp only at h
  subst h
  rfl

/-- A rejected write only counts a drop. -/
theorem drop_ring {s : State} {k : Nat} {buf : Mem} (r : Ring s k buf) (d : Nat) :
    Ring { s with mt_dropped := d } k buf ∧ visible { s with mt_dropped := d } = visible s :=
  ⟨⟨r.hbuf, r.hk1, r.hk, r.hmask, r.hhead, r.htail, r.hused⟩, rfl⟩

theorem clear_ring {s : State} {k : Nat} {buf : Mem} (r : Ring s k buf) :
    Ring (memtrace_clear s) k buf := by
  refine ⟨r.hbuf, r.hk1, r.hk, r.hmask, r.hhead, r.hhead, ?_⟩
  show mt_used_relaxed s.mt_head s.mt_head ≤ 2 ^ k
  have e : mt_used_relaxed s.mt_head s.mt_head = 0 := by
    have := r.hhead
    unfold mt_used_relaxed
    omega
  rw [e]
  exact Nat.zero_le _

theorem ring32_wrapping_ring : Ring ring32_wrapping 5 (fun _ => 0) :=
  ⟨rfl, by decide, by decide, by decide, by decide, by decide, by decide⟩

theorem ring32_ring : Ring ring32 5 (fun _ => 0) :=
  ⟨rfl, by decide, by decide, by decide, by decide, by decide, by decide⟩

theorem ring4096_ring : Ring ring4096 12 (fun j => j % 251) :=
  ⟨rfl, by decide, by decide, by decide, by decide, by decide, by decide⟩

/-! ## `memtrace_drain` -/

/-- The two `memcpy` calls of `memtrace_drain` read the logical bytes in order. -/
theorem drain_reads (k : Nat) (hk1 : 1 ≤ k) (hk : k ≤ 31) (buf : Mem) (t want : Nat)
    (hw : want ≤ 2 ^ k) :
    (let i := t &&& (2 ^ k - 1)
     let first := if (i + want) % 4294967296 ≤ 2 ^ k then want
                  else (2 ^ k + 4294967296 - i) % 4294967296
     readBytes buf i first ++
       (if first < want then readBytes buf 0 ((want + 4294967296 - first) % 4294967296) else []))
      = ringList (2 ^ k - 1) buf t want := by
  have h2 := two_le_pow hk1
  have h31 := pow_le_u31 hk
  have hi : t % 2 ^ k < 2 ^ k := Nat.mod_lt _ (by omega)
  have hb : ∀ y, y ≤ 2 ^ k → ringByte (2 ^ k - 1) buf t y
      = buf (if t % 2 ^ k + y < 2 ^ k then t % 2 ^ k + y else t % 2 ^ k + y - 2 ^ k) :=
    fun y hy => ringByte_direct k hk1 hk buf t y hy
  simp only [Nat.and_pow_two_sub_one_eq_mod]
  unfold ringList readBytes
  generalize t % 2 ^ k = i at hi hb ⊢
  generalize 2 ^ k = C at *
  by_cases hfit : i + want ≤ C
  · have h1 : (i + want) % 4294967296 ≤ C := by omega
    simp only [h1, if_true, lt_irrefl, if_false, List.append_nil]
    apply List.map_congr_left
    intro y hy
    rw [List.mem_range] at hy
    rw [hb y (by omega), if_pos (by omega)]
  · have h1 : ¬ (i + want) % 4294967296 ≤ C := by omega
    have hf : (C + 4294967296 - i) % 4294967296 = C - i := by omega
    have h3 : C - i < want := by omega
    have h4 : (want + 4294967296 - (C - i)) % 4294967296 = want - (C - i) := by omega
    simp only [h1, if_false, hf, h3, if_true, h4]
    have hsplit : want = (C - i) + (want - (C - i)) := by omega
    conv_rhs => rw [hsplit, List.range_add, List.map_append, List.map_map]
    congr 1
    · apply List.map_congr_left
      intro y hy
      rw [List.mem_range] at hy
      rw [hb y (by omega), if_pos (by omega)]
    · apply List.map_congr_left
      intro y hy
      rw [List.mem_range] at hy
      simp only [Function.comp]
      rw [hb _ (by omega), if_neg (by omega)]
      congr 1; omega

/-- What `memtrace_drain` does on a ring: it returns `min max_bytes used`, hands
out the oldest buffered bytes in order and advances the tail by that count. -/
theorem drain_spec {s : State} {k : Nat} {buf : Mem} (r : Ring s k buf) (m : Nat) :
    (memtrace_drain s m).ret = min m (mt_used_relaxed s.mt_head s.mt_tail) ∧
    (memtrace_drain s m).dst = (visible s).take m ∧
    (memtrace_drain s m).st
      = { s with mt_tail :=
            (s.mt_tail + min m (mt_used_relaxed s.mt_head s.mt_tail)) % 4294967296 } ∧
    Ring (memtrace_drain s m).st k buf ∧
    visible (memtrace_drain s m).st = (visible s).drop m := by
  have hcap := r.capacity
  have hvis := r.visible_eq
  have hb := r.hbuf
  have hm := r.hmask
  have hh := r.hhead
  have ht := r.htail
  have hu := r.hused
  have h31 := pow_le_u31 r.hk
  have hu32 : mt_used_relaxed s.mt_head s.mt_tail < 4294967296 := by omega
  by_cases h0 : mt_used_relaxed s.mt_head s.mt_tail = 0
  · have hst : (memtrace_drain s m) = { ret := 0, dst := [], st := s } := by
      unfold memtrace_drain
      rw [hb]
      simp only [h0, if_true]
    rw [hst, hvis, h0]
    have e : (s.mt_tail + min m 0) % 4294967296 = s.mt_tail := by
      rw [Nat.min_zero]; omega
    refine ⟨by simp, by simp [ringList], ?_, r, by simp [ringList]⟩
    rw [e]
  · have hw : (if m < mt_used_relaxed s.mt_head s.mt_tail then m
          else mt_used_relaxed s.mt_head s.mt_tail) % 4294967296
        = min m (mt_used_relaxed s.mt_head s.mt_tail) := by
      generalize mt_used_relaxed s.mt_head s.mt_tail = u at hu32
      split <;> omega
    have hst : (memtrace_drain s m) =
        { ret := min m (mt_used_relaxed s.mt_head s.mt_tail),
          dst := ringList (2 ^ k - 1) buf s.mt_tail
                   (min m (mt_used_relaxed s.mt_head s.mt_tail)),
          st := { s with mt_tail :=
            (s.mt_tail + min m (mt_used_relaxed s.mt_head s.mt_tail)) % 4294967296 } } := by
      unfold memtrace_drain
      rw [hb]
      simp only [h0, if_false, hw, hcap, hm]
      rw [drain_reads k r.hk1 r.hk buf s.mt_tail _ (by omega)]
    rw [hst]
    have hle : min m (mt_used_relaxed s.mt_head s.mt_tail)
        ≤ mt_used_relaxed s.mt_head s.mt_tail := Nat.min_le_right _ _
    have hused' := used_after_drain s.mt_head s.mt_tail _ hh ht hle
    have hr' : Ring { s with mt_tail :=
            (s.mt_tail + min m (mt_used_relaxed s.mt_head s.mt_tail)) % 4294967296 } k buf := by
      refine ⟨hb, r.hk1, r.hk, hm, hh, ?_, ?_⟩
      · exact Nat.mod_lt _ (by norm_num)
      · show mt_used_relaxed s.mt_head _ ≤ 2 ^ k
        rw [hused']
        omega
    refine ⟨rfl, ?_, rfl, hr', ?_⟩
    · rw [hvis, ringList_take]
    · rw [hr'.visible_eq, hvis]
      show ringList _ _ _ (mt_used_relaxed s.mt_head _) = _
      rw [hused']
      rcases Nat.le_total m (mt_used_relaxed s.mt_head s.mt_tail) with hc | hc
      · rw [Nat.min_eq_left hc, ringList_drop]
      · rw [Nat.min_eq_right hc, Nat.sub_self, List.drop_eq_nil_of_le
          (by rw [ringList_length]; exact hc)]
        rfl

/-- With nothing buffered `memtrace_drain` returns 0 and changes nothing. -/
theorem drain_empty (s : State) (h : s.mt_tail = s.mt_head) (max_bytes : Nat) :
    memtrace_drain s max_bytes = { ret := 0, dst := [], st := s } := by
  have hu : mt_used_relaxed s.mt_head s.mt_tail = 0 := by
    rw [h]; unfold mt_used_relaxed; omega
  unfold memtrace_drain
  cases s.mt_buf with
  | none => rfl
  | some buf => simp only [hu, if_true]

/-! ## `mt_try_write`, `memtrace_emit_byte`, `memtrace_emit_erase` -/

theorem mt_try_write_reject (s : State) (buf : Mem) (src : Mem) (len : Nat)
    (hbuf : s.mt_buf = some buf) (hfree : mt_free s ≤ len) :
    mt_try_write s src len
      = (0, { s with mt_dropped := (s.mt_dropped + 1) % 18446744073709551616 }) := by
  unfold mt_free at hfree
  unfold mt_try_write
  rw [hbuf]
  simp only []
  rw [if_pos hfree]

theorem mt_try_write_accept (s : State) (buf : Mem) (src : Mem) (len : Nat)
    (hbuf : s.mt_buf = some buf) (hfree : len < mt_free s) :
    mt_try_write s src len
      = (1, { s with mt_buf := some (mt_copy_in s.mt_mask buf s.mt_head src len),
                     mt_head := (s.mt_head + len) % 4294967296 }) := by
  unfold mt_free at hfree
  unfold mt_try_write
  rw [hbuf]
  simp only []
  rw [if_neg (by omega)]

/-- An accepted `mt_try_write` on a ring appends its `len` source bytes to the
buffered bytes and keeps the ring invariant. -/
theorem try_write_accept_ring {s : State} {k : Nat} {buf : Mem} (r : Ring s k buf)
    (src : Mem) (len : Nat) (hfree : len < mt_free s) :
    Ring { s with mt_buf := some (mt_copy_in s.mt_mask buf s.mt_head src len),
                  mt_head := (s.mt_head + len) % 4294967296 } k
      (mt_copy_in s.mt_mask buf s.mt_head src len) ∧
    visible { s with mt_buf := some (mt_copy_in s.mt_mask buf s.mt_head src len),
                     mt_head := (s.mt_head + len) % 4294967296 }
      = visible s ++ (List.range len).map src := by
  have h31 := pow_le_u31 r.hk
  have hu := r.hused
  have hh := r.hhead
  have ht := r.htail
  have hf := r.free_eq
  have hused' : mt_used_relaxed ((s.mt_head + len) % 4294967296) s.mt_tail
      = mt_used_relaxed s.mt_head s.mt_tail + len := by
    rw [hf] at hfree
    unfold mt_used_relaxed at hu hfree ⊢
    omega
  have hr' : Ring
      { s with mt_buf := some (mt_copy_in s.mt_mask buf s.mt_head src len),
               mt_head := (s.mt_head + len) % 4294967296 } k
      (mt_copy_in s.mt_mask buf s.mt_head src len) := by
    refine ⟨rfl, r.hk1, r.hk, r.hmask, Nat.mod_lt _ (by norm_num), ht, ?_⟩
    show mt_used_relaxed ((s.mt_head + len) % 4294967296) s.mt_tail ≤ 2 ^ k
    rw [hused']; omega
  refine ⟨hr', ?_⟩
  rw [hr'.visible_eq, r.visible_eq]
  show ringList _ _ _ (mt_used_relaxed ((s.mt_head + len) % 4294967296) s.mt_tail) = _
  rw [hused', r.hmask]
  have hpos := head_eq_tail_add s.mt_head s.mt_tail hh ht
  have := ringList_copy_in_append k r.hk1 r.hk buf src s.mt_tail
    (mt_used_relaxed s.mt_head s.mt_tail) len (by omega)
  rw [← hpos] at this
  exact this

theorem try_write_tail (s : State) (src : Mem) (len : Nat) :
    (mt_try_write s src len).2.mt_tail = s.mt_tail := by
  unfold mt_try_write
  cases s.mt_buf with
  | none => rfl
  | some buf =>
    simp only []
    split <;> rfl

theorem map_ptr_range (l : List Nat) : (List.range l.length).map (ptr l) = l := by
  apply List.ext_getElem
  · simp
  · intro i h1 h2
    simp [ptr, List.getD_eq_getElem?_getD, List.getElem?_eq_getElem h2]

theorem hdr_bytes_length (a b c d e : Nat) : (hdr_bytes a b c d e).length = 12 := rfl

theorem hdr_bytes_ne_nil (a b c d e : Nat) (rest : List Nat) :
    hdr_bytes a b c d e ++ rest ≠ [] := by
  simp [hdr_bytes]

theorem erase_len_mask (len : Nat) : (len &&& 0xFFFF) % 65536 = len % 65536 := by
  have h := Nat.and_pow_two_sub_one_eq_mod len 16
  norm_num at h
  rw [h]
  omega

theorem emit_byte_eq (s : State) (addr value cycles : Nat) (hen : s.mt_enabled ≠ 0) :
    memtrace_emit_byte s addr value cycles
      = (mt_try_write s (ptr (byte_record addr value cycles)) 13).2 := by
  unfold memtrace_emit_byte
  rw [if_neg hen]
  rfl

theorem emit_erase_eq (s : State) (addr len cycles : Nat) (hen : s.mt_enabled ≠ 0) :
    memtrace_emit_erase s addr len cycles
      = (mt_try_write s (ptr (erase_record addr len cycles)) 12).2 := by
  unfold memtrace_emit_erase erase_record
  rw [if_neg hen, erase_len_mask]

theorem emit_byte_ring {s : State} {k : Nat} {buf : Mem} (r : Ring s k buf)
    (addr value cycles : Nat) :
    (memtrace_emit_byte s addr value cycles).mt_head = s.mt_head ∧
      (∃ b, Ring (memtrace_emit_byte s addr value cycles) k b) ∧
      visible (memtrace_emit_byte s addr value cycles) = visible s ∨
    (memtrace_emit_byte s addr value cycles).mt_head ≠ s.mt_head ∧
      (∃ b, Ring (memtrace_emit_byte s addr value cycles) k b) ∧
      visible (memtrace_emit_byte s addr value cycles)
        = visible s ++ byte_record addr value cycles := by
  have hh := r.hhead
  by_cases hen : s.mt_enabled = 0
  · have e : memtrace_emit_byte s addr value cycles = s := by
      unfold memtrace_emit_byte; rw [if_pos hen]
    rw [e]
    exact Or.inl ⟨rfl, ⟨buf, r⟩, rfl⟩
  · rw [emit_byte_eq s addr value cycles hen]
    by_cases hfree : mt_free s ≤ 13
    · rw [mt_try_write_reject s buf _ 13 r.hbuf hfree]
      exact Or.inl ⟨rfl, ⟨buf, (drop_ring r _).1⟩, (drop_ring r _).2⟩
    · rw [mt_try_write_accept s buf _ 13 r.hbuf (by omega)]
      obtain ⟨hr, hv⟩ := try_write_accept_ring r
        (ptr (byte_record addr value cycles)) 13 (by omega)
      refine Or.inr ⟨?_, ⟨_, hr⟩, ?_⟩
      · show (s.mt_head + 13) % 4294967296 ≠ s.mt_head
        omega
      · rw [hv]
        exact congrArg _ (map_ptr_range (byte_record addr value cycles))

theorem emit_erase_ring {s : State} {k : Nat} {buf : Mem} (r : Ring s k buf)
    (addr len cycles : Nat) :
    (memtrace_emit_erase s addr len cycles).mt_head = s.mt_head ∧
      (∃ b, Ring (memtrace_emit_erase s addr len cycles) k b) ∧
      visible (memtrace_emit_erase s addr len cycles) = visible s ∨
    (memtrace_emit_erase s addr len cycles).mt_head ≠ s.mt_head ∧
      (∃ b, Ring (memtrace_emit_erase s addr len cycles) k b) ∧
      visible (memtrace_emit_erase s addr len cycles)
        = visible s ++ erase_record addr len cycles := by
  have hh := r.hhead
  by_cases hen : s.mt_enabled = 0
  · have e : memtrace_emit_erase s addr len cycles = s := by
      unfold memtrace_emit_erase; rw [if_pos hen]
    rw [e]
    exact Or.inl ⟨rfl, ⟨buf, r⟩, rfl⟩
  · rw [emit_erase_eq s addr len cycles hen]
    by_cases hfree : mt_free s ≤ 12
    · rw [mt_try_write_reject s buf _ 12 r.hbuf hfree]
      exact Or.inl ⟨rfl, ⟨buf, (drop_ring r _).1⟩, (drop_ring r _).2⟩
    · rw [mt_try_write_accept s buf _ 12 r.hbuf (by omega)]
      obtain ⟨hr, hv⟩ := try_write_accept_ring r
        (ptr (erase_record addr len cycles)) 12 (by omega)
      refine Or.inr ⟨?_, ⟨_, hr⟩, ?_⟩
      · show (s.mt_head + 12) % 4294967296 ≠ s.mt_head
        omega
      · rw [hv]
        exact congrArg _ (map_ptr_range (erase_record addr len cycles))

/-! ## `memtrace_emit_run` -/

/-- With storage allocated the loop of `memtrace_emit_run` ends within
`len - off + 1` iterations: the budget of `memtrace_emit_run` is never used up. -/
theorem emit_run_loop_total (addr : Nat) (src : Mem) (len cycles : Nat) :
    ∀ (fuel off h_local : Nat) (s : State) (buf : Mem), s.mt_buf = some buf →
      len - off < fuel →
      ∃ s', emit_run_loop addr src len cycles fuel off h_local s = some s' := by
  intro fuel
  induction fuel with
  | zero => intro off h s buf hb hf; omega
  | succ f ih =>
    intro off h s buf hb hf
    unfold emit_run_loop
    by_cases h1 : off < len
    · rw [if_pos h1]
      dsimp only
      have hn : 1 ≤ (if len - off > 1024 then 1024 else len - off) := by split <;> omega
      generalize (if len - off > 1024 then 1024 else len - off) = n at hn
      split
      · exact ⟨_, rfl⟩
      · rw [hb]
        exact ih _ _ _ _ rfl (by omega)
    · rw [if_neg h1]
      exact ⟨_, rfl⟩

theorem run_rest_zero (len : Nat) : run_rest len 0 = len + 12 * run_chunks len := by
  unfold run_rest; omega

theorem run_chunk_len_le (len i : Nat) : run_chunk_len len i ≤ 1024 := by
  unfold run_chunk_len; omega

theorem emit_run_loop_spec (k : Nat) (hk1 : 1 ≤ k) (hk : k ≤ 31) (s : State)
    (hmask : s.mt_mask = 2 ^ k - 1) (ht : s.mt_tail < 4294967296)
    (addr : Nat) (src : Mem) (len cycles : Nat) :
    ∀ (n i x fuel : Nat) (buf : Mem), run_chunks len - i = n → i ≤ run_chunks len →
      len - 1024 * i < fuel → x ≤ 2 ^ k → (n = 0 → x < 2 ^ k) →
      ∃ buf',
        (x + run_rest len i < 2 ^ k →
          emit_run_loop addr src len cycles fuel (min len (1024 * i))
              ((s.mt_tail + x) % 4294967296) { s with mt_buf := some buf }
            = some { s with mt_buf := some buf',
                            mt_head := (s.mt_tail + (x + run_rest len i)) % 4294967296 } ∧
          ringList (2 ^ k - 1) buf' s.mt_tail (x + run_rest len i)
            = ringList (2 ^ k - 1) buf s.mt_tail x
                ++ (List.range' i n).flatMap (run_record addr src len cycles)) ∧
        (2 ^ k ≤ x + run_rest len i →
          emit_run_loop addr src len cycles fuel (min len (1024 * i))
              ((s.mt_tail + x) % 4294967296) { s with mt_buf := some buf }
            = some { s with mt_buf := some buf',
                            mt_dropped := (s.mt_dropped + 1) % 18446744073709551616 } ∧
          ringList (2 ^ k - 1) buf' s.mt_tail x = ringList (2 ^ k - 1) buf s.mt_tail x) := by
  have h2 := two_le_pow hk1
  have h31 := pow_le_u31 hk
  intro n
  induction n with
  | zero =>
    intro i x fuel buf hn hi hfuel hx hx0
    have hx' := hx0 rfl
    have hoff : ¬ (min len (1024 * i) < len) := by
      unfold run_chunks at hn hi; omega
    have hrest : run_rest len i = 0 := by
      unfold run_rest run_chunks at *; omega
    refine ⟨buf, ?_, ?_⟩
    · intro _
      obtain ⟨f, rfl⟩ : ∃ f, fuel = f + 1 := ⟨fuel - 1, by omega⟩
      rw [hrest]
      simp only [emit_run_loop, hoff, if_false, Nat.add_zero, List.range'_zero,
        List.flatMap_nil, List.append_nil, and_self]
    · intro hge
      omega
  | succ n ih =>
    intro i x fuel buf hn hi hfuel hx _
    obtain ⟨f, rfl⟩ : ∃ f, fuel = f + 1 := ⟨fuel - 1, by omega⟩
    have hoff : min len (1024 * i) = 1024 * i := by
      unfold run_chunks at hn hi; omega
    have hlt : 1024 * i < len := by
      unfold run_chunks at hn hi; omega
    have hcl : (if len - 1024 * i > 1024 then 1024 else len - 1024 * i)
        = run_chunk_len len i := by
      unfold run_chunk_len; split <;> omega
    have hcl1 : 1 ≤ run_chunk_len len i ∧ run_chunk_len len i ≤ 1024 := by
      unfold run_chunk_len; omega
    have hrest : run_rest len i = 12 + run_chunk_len len i + run_rest len (i + 1) := by
      unfold run_rest run_chunk_len run_chunks at *; omega
    have hoff' : 1024 * i + run_chunk_len len i = min len (1024 * (i + 1)) := by
      unfold run_chunk_len; omega
    have hcap : mt_capacity { s with mt_buf := some buf } = 2 ^ k := by
      unfold mt_capacity
      show (s.mt_mask + 1) % 4294967296 = 2 ^ k
      rw [hmask]; omega
    have hused : mt_used_relaxed ((s.mt_tail + x) % 4294967296) s.mt_tail = x :=
      used_tail_add _ _ ht (by omega)
    by_cases hdrop : 2 ^ k ≤ x + (12 + run_chunk_len len i)
    · refine ⟨buf, ?_, ?_⟩
      · intro hfit; omega
      · intro _
        have hc : (2 ^ k + 4294967296 - x) % 4294967296
            ≤ (12 + run_chunk_len len i) % 4294967296 := by omega
        have hcapn : (2 ^ k - 1 + 1) % 4294967296 = 2 ^ k := by omega
        rw [hoff]
        simp only [emit_run_loop, hlt, if_true, hcl, mt_capacity, hmask, hcapn, hused, hc,
          and_self]
    · have hc : ¬ (2 ^ k + 4294967296 - x) % 4294967296
            ≤ (12 + run_chunk_len len i) % 4294967296 := by omega
      have hn1 : n = 0 → x + 12 + run_chunk_len len i < 2 ^ k := by intro _; omega
      have hmod : run_chunk_len len i % 65536 = run_chunk_len len i := by omega
      obtain ⟨hdr, hhdr⟩ : ∃ hdr, hdr = hdr_bytes MT_EVT_RUN 0 (run_chunk_len len i)
          ((addr + 1024 * i) % 4294967296) cycles := ⟨_, rfl⟩
      obtain ⟨buf1, hbuf1⟩ : ∃ b, b = mt_copy_in (2 ^ k - 1) buf
          ((s.mt_tail + x) % 4294967296) (ptr hdr) 12 := ⟨_, rfl⟩
      obtain ⟨buf2, hbuf2⟩ : ∃ b, b = mt_copy_in (2 ^ k - 1) buf1
          ((s.mt_tail + (x + 12)) % 4294967296) (fun j => src (1024 * i + j))
          (run_chunk_len len i) := ⟨_, rfl⟩
      obtain ⟨buf', ihfit, ihdrop⟩ := ih (i + 1) (x + 12 + run_chunk_len len i) f buf2
        (by omega) (by omega) (by unfold run_chunk_len at hcl1; omega) (by omega) hn1
      have hstep : emit_run_loop addr src len cycles (f + 1) (min len (1024 * i))
              ((s.mt_tail + x) % 4294967296) { s with mt_buf := some buf }
          = emit_run_loop addr src len cycles f (min len (1024 * (i + 1)))
              ((s.mt_tail + (x + 12 + run_chunk_len len i)) % 4294967296)
              { s with mt_buf := some buf2 } := by
        have e1 : ((s.mt_tail + x) % 4294967296 + 12) % 4294967296
            = (s.mt_tail + (x + 12)) % 4294967296 := by omega
        have e2 : ((s.mt_tail + (x + 12)) % 4294967296 + run_chunk_len len i) % 4294967296
            = (s.mt_tail + (x + 12 + run_chunk_len len i)) % 4294967296 := by omega
        have hcapn : (2 ^ k - 1 + 1) % 4294967296 = 2 ^ k := by omega
        rw [hoff, hbuf2, hbuf1, hhdr]
        simp only [emit_run_loop, hlt, if_true, hcl, mt_capacity, hmask, hcapn, hused, hc,
          if_false, e1, e2, hoff', hmod]
      have hw1 := ringList_copy_in_append k hk1 hk buf (ptr hdr) s.mt_tail x 12 (by omega)
      have hw2 := ringList_copy_in_append k hk1 hk buf1
        (fun j => src (1024 * i + j)) s.mt_tail (x + 12) (run_chunk_len len i) (by omega)
      rw [← hbuf1] at hw1
      rw [← hbuf2, hw1] at hw2
      have hlen12 : hdr.length = 12 := by rw [hhdr]; rfl
      have hmap := map_ptr_range hdr
      rw [hlen12] at hmap
      rw [hmap, List.append_assoc] at hw2
      refine ⟨buf', ?_, ?_⟩
      · intro hfit
        obtain ⟨e, hl⟩ := ihfit (by omega)
        rw [hstep, e]
        have ex : x + 12 + run_chunk_len len i + run_rest len (i + 1) = x + run_rest len i := by
          omega
        rw [ex] at hl
        refine ⟨by rw [ex], ?_⟩
        rw [hl, hw2, List.range'_succ, List.flatMap_cons, hhdr]
        simp only [run_record, List.append_assoc]
      · intro hge
        obtain ⟨e, hl⟩ := ihdrop (by omega)
        rw [hstep, e]
        refine ⟨rfl, ?_⟩
        rw [hw2] at hl
        have t1 := congrArg (List.take x) hl
        rw [ringList_take, Nat.min_eq_left (by omega : x ≤ x + 12 + run_chunk_len len i),
          List.take_append_of_le_length (by rw [ringList_length]),
          List.take_of_length_le (by rw [ringList_length])] at t1
        exact t1

/-- `memtrace_emit_run` on a ring, enabled and with `len ≥ 1`: either the whole
run fits and its records are appended and published at once, or only a drop is
counted and the buffered bytes stay as they were. -/
theorem emit_run_ring {s : State} {k : Nat} {buf : Mem} (r : Ring s k buf)
    (hen : s.mt_enabled ≠ 0) (addr : Nat) (src : Mem) (len cycles : Nat) (hlen : 1 ≤ len) :
    ∃ buf',
      (len + 12 * run_chunks len < mt_free s →
        memtrace_emit_run s addr src len cycles
          = { s with mt_buf := some buf',
                     mt_head := (s.mt_head + (len + 12 * run_chunks len)) % 4294967296 } ∧
        Ring (memtrace_emit_run s addr src len cycles) k buf' ∧
        visible (memtrace_emit_run s addr src len cycles)
          = visible s ++ run_records addr src len cycles) ∧
      (mt_free s ≤ len + 12 * run_chunks len →
        memtrace_emit_run s addr src len cycles
          = { s with mt_buf := some buf',
                     mt_dropped := (s.mt_dropped + 1) % 18446744073709551616 } ∧
        Ring (memtrace_emit_run s addr src len cycles) k buf' ∧
        visible (memtrace_emit_run s addr src len cycles) = visible s) := by
  have h31 := pow_le_u31 r.hk
  have hu := r.hused
  have hh := r.hhead
  have ht := r.htail
  have hf := r.free_eq
  have hpos := head_eq_tail_add s.mt_head s.mt_tail hh ht
  have hch : 1 ≤ run_chunks len := by unfold run_chunks; omega
  obtain ⟨buf', hfit, hdrop⟩ := emit_run_loop_spec k r.hk1 r.hk s r.hmask ht addr src len cycles
    (run_chunks len) 0 (mt_used_relaxed s.mt_head s.mt_tail) (len + 1) buf rfl (by omega)
    (by omega) hu (by omega)
  rw [State.with_buf_self s buf r.hbuf, ← hpos, run_rest_zero, Nat.mul_zero,
    Nat.min_eq_right (Nat.zero_le _)] at hfit hdrop
  have hrun : ∀ s', emit_run_loop addr src len cycles (len + 1) 0 s.mt_head s = some s' →
      memtrace_emit_run s addr src len cycles = s' := by
    intro s' e
    unfold memtrace_emit_run
    rw [if_neg (by omega), e]
  refine ⟨buf', ?_, ?_⟩
  · intro hfree
    rw [hf] at hfree
    obtain ⟨e, hl⟩ := hfit (by omega)
    have hhead : (s.mt_tail + (mt_used_relaxed s.mt_head s.mt_tail + (len + 12 * run_chunks len)))
          % 4294967296 = (s.mt_head + (len + 12 * run_chunks len)) % 4294967296 := by
      omega
    rw [hhead] at e
    have hused' : mt_used_relaxed ((s.mt_head + (len + 12 * run_chunks len)) % 4294967296)
          s.mt_tail = mt_used_relaxed s.mt_head s.mt_tail + (len + 12 * run_chunks len) := by
      unfold mt_used_relaxed at hu hfree ⊢
      omega
    rw [hrun _ e]
    have hr' : Ring
        { s with mt_buf := some buf',
                 mt_head := (s.mt_head + (len + 12 * run_chunks len)) % 4294967296 } k buf' := by
      refine ⟨rfl, r.hk1, r.hk, r.hmask, Nat.mod_lt _ (by norm_num), ht, ?_⟩
      show mt_used_relaxed ((s.mt_head + (len + 12 * run_chunks len)) % 4294967296) s.mt_tail
        ≤ 2 ^ k
      rw [hused']; omega
    refine ⟨rfl, hr', ?_⟩
    rw [hr'.visible_eq, r.visible_eq]
    show ringList _ _ _ (mt_used_relaxed
      ((s.mt_head + (len + 12 * run_chunks len)) % 4294967296) s.mt_tail) = _
    rw [hused', hl]
    unfold run_records
    rw [List.range_eq_range']
  · intro hfree
    rw [hf] at hfree
    obtain ⟨e, hl⟩ := hdrop (by omega)
    rw [hrun _ e]
    have hr' : Ring
        { s with mt_buf := some buf',
                 mt_dropped := (s.mt_dropped + 1) % 18446744073709551616 } k buf' :=
      ⟨rfl, r.hk1, r.hk, r.hmask, hh, ht, hu⟩
    refine ⟨rfl, hr', ?_⟩
    rw [hr'.visible_eq, r.visible_eq]
    exact hl

theorem emit_run_ring_cases {s : State} {k : Nat} {buf : Mem} (r : Ring s k buf)
    (addr : Nat) (src : Mem) (len cycles : Nat) :
    (memtrace_emit_run s addr src len cycles).mt_head = s.mt_head ∧
      (∃ b, Ring (memtrace_emit_run s addr src len cycles) k b) ∧
      visible (memtrace_emit_run s addr src len cycles) = visible s ∨
    (memtrace_emit_run s addr src len cycles).mt_head ≠ s.mt_head ∧
      (∃ b, Ring (memtrace_emit_run s addr src len cycles) k b) ∧
      visible (memtrace_emit_run s addr src len cycles)
        = visible s ++ run_records addr src len cycles := by
  have hh := r.hhead
  have h31 := pow_le_u31 r.hk
  by_cases hen : s.mt_enabled = 0 ∨ len = 0
  · have e : memtrace_emit_run s addr src len cycles = s := by
      unfold memtrace_emit_run; rw [if_pos hen]
    rw [e]
    exact Or.inl ⟨rfl, ⟨buf, r⟩, rfl⟩
  · have hen' : s.mt_enabled ≠ 0 := fun h => hen (Or.inl h)
    have hlen : 1 ≤ len := by
      rcases Nat.eq_zero_or_pos len with h | h
      · exact absurd (Or.inr h) hen
      · exact h
    obtain ⟨buf', hfit, hdrop⟩ := emit_run_ring r hen' addr src len cycles hlen
    by_cases hfree : mt_free s ≤ len + 12 * run_chunks len
    · obtain ⟨e, hr, hv⟩ := hdrop hfree
      refine Or.inl ⟨?_, ⟨_, hr⟩, hv⟩
      rw [e]
    · obtain ⟨e, hr, hv⟩ := hfit (by omega)
      refine Or.inr ⟨?_, ⟨_, hr⟩, hv⟩
      rw [e]
      show (s.mt_head + (len + 12 * run_chunks len)) % 4294967296 ≠ s.mt_head
      have := r.free_eq
      omega

theorem emit_run_loop_tail (addr : Nat) (src : Mem) (len cycles : Nat) :
    ∀ (fuel off h_local : Nat) (s s' : State),
      emit_run_loop addr src len cycles fuel off h_local s = some s' →
      s'.mt_tail = s.mt_tail := by
  intro fuel
  induction fuel with
  | zero => intro off h s s' e; simp [emit_run_loop] at e
  | succ f ih =>
    intro off h s s' e
    unfold emit_run_loop at e
    by_cases h1 : off < len
    · rw [if_pos h1] at e
      dsimp only at e
      generalize (if len - off > 1024 then 1024 else len - off) = n at e
      split at e
      · cases e; rfl
      · cases hb : s.mt_buf with
        | none => rw [hb] at e; cases e
        | some buf =>
          rw [hb] at e
          have h3 := ih _ _ _ _ e
          exact h3
    · rw [if_neg h1] at e
      cases e; rfl

/-- The payloads of the first `n` records, concatenated, are the first
`min len (1024 * n)` bytes of the run. -/
theorem run_payloads_concat (src : Mem) (len : Nat) (n : Nat) :
    (List.range n).flatMap
        (fun i => (List.range (run_chunk_len len i)).map (fun j => src (1024 * i + j)))
      = (List.range (min len (1024 * n))).map src := by
  induction n with
  | zero => simp
  | succ n ih =>
    rw [List.range_succ, List.flatMap_append, ih]
    have e : min len (1024 * (n + 1)) = min len (1024 * n) + run_chunk_len len n := by
      unfold run_chunk_len; omega
    rw [e, List.range_add, List.map_append, List.map_map]
    congr 1
    simp only [List.flatMap_cons, List.flatMap_nil, List.append_nil]
    apply List.map_congr_left
    intro j hj
    rw [List.mem_range] at hj
    simp only [Function.comp]
    congr 1
    unfold run_chunk_len at hj
    omega

/-! ## Reading records back -/

theorem parse_hdr_bytes (type pad len addr cycles : Nat) (rest : List Nat) :
    parse_hdr (hdr_bytes type pad len addr cycles ++ rest)
      = { type := type % 256, reserved := pad % 256, length := len % 65536,
          address := addr % 4294967296, cycles := cycles % 4294967296 } := by
  simp only [parse_hdr, hdr_bytes, List.cons_append, List.nil_append, List.getD_cons_zero,
    List.getD_cons_succ, Hdr.mk.injEq]
  refine ⟨trivial, trivial, ?_, ?_, ?_⟩ <;> omega

theorem drop_hdr_bytes (type pad len addr cycles : Nat) (rest : List Nat) :
    (hdr_bytes type pad len addr cycles ++ rest).drop 12 = rest := rfl

/-! ## Histories -/

theorem emit_tail (s : State) (op : Op) (hop : ∀ m, op ≠ .drain m) :
    (op.next s).mt_tail = s.mt_tail := by
  cases op with
  | emitByte addr value cycles =>
    show (memtrace_emit_byte s addr value cycles).mt_tail = _
    unfold memtrace_emit_byte
    split
    · rfl
    · exact try_write_tail _ _ _
  | emitRun addr src len cycles =>
    show (memtrace_emit_run s addr src len cycles).mt_tail = _
    unfold memtrace_emit_run
    split
    · rfl
    · cases e : emit_run_loop addr src len cycles (len + 1) 0 s.mt_head s with
      | none => rfl
      | some s' => exact emit_run_loop_tail _ _ _ _ _ _ _ _ _ e
  | emitErase addr len cycles =>
    show (memtrace_emit_erase s addr len cycles).mt_tail = _
    unfold memtrace_emit_erase
    split
    · rfl
    · exact try_write_tail _ _ _
  | drain m => exact absurd rfl (hop m)

/-- An emit that moved the head has a non-empty record. -/
theorem record_ne_nil_of_head_moved (s : State) (op : Op)
    (h : (op.next s).mt_head ≠ s.mt_head) : op.record ≠ [] := by
  cases op with
  | emitByte addr value cycles => exact hdr_bytes_ne_nil _ _ _ _ _ _
  | emitRun addr src len cycles =>
    have hlen : len ≠ 0 := by
      intro h0
      apply h
      show (memtrace_emit_run s addr src len cycles).mt_head = _
      unfold memtrace_emit_run
      rw [if_pos (Or.inr h0)]
    show run_records addr src len cycles ≠ []
    unfold run_records
    have : run_chunks len = (run_chunks len - 1) + 1 := by unfold run_chunks; omega
    rw [this, List.range_succ_eq_map, List.flatMap_cons]
    unfold run_record
    rw [List.append_assoc]
    exact hdr_bytes_ne_nil _ _ _ _ _ _
  | emitErase addr len cycles =>
    have := hdr_bytes_ne_nil MT_EVT_ERASE 0 (len % 65536) addr cycles []
    simpa [Op.record, erase_record] using this
  | drain m =>
    exfalso
    apply h
    show (memtrace_drain s m).st.mt_head = s.mt_head
    unfold memtrace_drain
    cases s.mt_buf with
    | none => rfl
    | some buf =>
      simp only []
      split <;> rfl

theorem Log.step_inv (k : Nat) (l : Log) (op : Op) (h : l.Inv k) : (l.step op).Inv k := by
  obtain ⟨⟨buf, r⟩, hacc⟩ := h
  unfold Log.Inv Log.step
  cases op with
  | emitByte addr value cycles =>
    rcases emit_byte_ring r addr value cycles with ⟨hh, hr, hv⟩ | ⟨hh, hr, hv⟩
    · simp only [Op.next, Op.output, Op.record, hh, if_true, List.append_nil]
      exact ⟨hr, by rw [hv]; exact hacc⟩
    · simp only [Op.next, Op.output, Op.record, hh, if_false, List.append_nil]
      exact ⟨hr, by rw [hv, ← List.append_assoc, hacc]⟩
  | emitRun addr src len cycles =>
    rcases emit_run_ring_cases r addr src len cycles with ⟨hh, hr, hv⟩ | ⟨hh, hr, hv⟩
    · simp only [Op.next, Op.output, Op.record, hh, if_true, List.append_nil]
      exact ⟨hr, by rw [hv]; exact hacc⟩
    · simp only [Op.next, Op.output, Op.record, hh, if_false, List.append_nil]
      exact ⟨hr, by rw [hv, ← List.append_assoc, hacc]⟩
  | emitErase addr len cycles =>
    rcases emit_erase_ring r addr len cycles with ⟨hh, hr, hv⟩ | ⟨hh, hr, hv⟩
    · simp only [Op.next, Op.output, Op.record, hh, if_true, List.append_nil]
      exact ⟨hr, by rw [hv]; exact hacc⟩
    · simp only [Op.next, Op.output, Op.record, hh, if_false, List.append_nil]
      exact ⟨hr, by rw [hv, ← List.append_assoc, hacc]⟩
  | drain max_bytes =>
    obtain ⟨_, hd, hst, hr, hv⟩ := drain_spec r max_bytes
    have hhead : (memtrace_drain l.st max_bytes).st.mt_head = l.st.mt_head := by rw [hst]
    simp only [Op.next, Op.output, Op.record, hhead, if_true]
    refine ⟨⟨buf, hr⟩, ?_⟩
    rw [hd, hv, List.append_assoc, List.take_append_drop, hacc]

theorem foldl_step_inv (k : Nat) (ops : List Op) :
    ∀ l : Log, l.Inv k → (ops.foldl Log.step l).Inv k := by
  induction ops with
  | nil => intro l h; exact h
  | cons op ops ih => intro l h; exact ih _ (Log.step_inv k l op h)

/-- On a ring that starts empty, what has been drained followed by what is
still buffered is what the accepted emits wrote. -/
theorem run_ops_inv (s : State) (k : Nat) (buf : Mem) (r : Ring s k buf)
    (hempty : s.mt_tail = s.mt_head) (ops : List Op) :
    (run_ops s ops).drained ++ visible (run_ops s ops).st = (run_ops s ops).accepted := by
  have h0 : Log.Inv k { st := s, drained := [], accepted := [] } := by
    refine ⟨⟨buf, r⟩, ?_⟩
    show [] ++ visible s = []
    rw [r.visible_eq, hempty]
    have : mt_used_relaxed s.mt_head s.mt_head = 0 := by
      have := r.hhead
      unfold mt_used_relaxed; omega
    rw [this]
    rfl
  exact (foldl_step_inv k ops _ h0).2

/-- As long as no emit has been accepted nothing is buffered and nothing has
been drained. -/
theorem foldl_step_idle (ops : List Op) :
    ∀ l : Log, (l.accepted = [] → l.drained = [] ∧ l.st.mt_tail = l.st.mt_head) →
      (ops.foldl Log.step l).accepted = [] →
      (ops.foldl Log.step l).drained = [] ∧
        (ops.foldl Log.step l).st.mt_tail = (ops.foldl Log.step l).st.mt_head := by
  induction ops with
  | nil => intro l h hacc; exact h hacc
  | cons op ops ih =>
    intro l h hacc
    apply ih (l.step op) _ hacc
    intro hacc1
    unfold Log.step at hacc1 ⊢
    simp only [] at hacc1 ⊢
    by_cases hmove : (op.next l.st).mt_head = l.st.mt_head
    · rw [if_pos hmove] at hacc1
      obtain ⟨hd, ht⟩ := h hacc1
      cases op with
      | drain m =>
        have e := drain_empty l.st ht m
        simp only [Op.output, Op.next, e, hd, List.append_nil, ht, and_self]
      | emitByte addr value cycles =>
        refine ⟨by simp [Op.output, hd], ?_⟩
        rw [hmove, emit_tail l.st _ (by intro m; simp), ht]
      | emitRun addr src len cycles =>
        refine ⟨by simp [Op.output, hd], ?_⟩
        rw [hmove, emit_tail l.st _ (by intro m; simp), ht]
      | emitErase addr len cycles =>
        refine ⟨by simp [Op.output, hd], ?_⟩
        rw [hmove, emit_tail l.st _ (by intro m; simp), ht]
    · rw [if_neg hmove] at hacc1
      exfalso
      have := record_ne_nil_of_head_moved l.st op hmove
      simp at hacc1
      exact this hacc1.2

/-! ## Subscription bitmap -/

theorem and_two_pow_ne_zero (x b : Nat) : ((x &&& 2 ^ b) != 0) = x.testBit b := by
  by_cases h : x.testBit b
  · have e : x &&& 2 ^ b = 2 ^ b := by
      apply Nat.eq_of_testBit_eq
      intro i
      rw [Nat.testBit_and, Nat.testBit_two_pow]
      by_cases hbi : b = i
      · subst hbi; simp [h]
      · simp [hbi]
    rw [e, h]
    have : 2 ^ b ≠ 0 := by positivity
    simp [this]
  · have e : x &&& 2 ^ b = 0 := by
      apply Nat.eq_of_testBit_eq
      intro i
      rw [Nat.testBit_and, Nat.testBit_two_pow]
      by_cases hbi : b = i
      · subst hbi; simp [h]
      · simp [hbi]
    rw [e]
    simp [h]

theorem page_lt (x : Nat) : page x < 4096 := by
  unfold page
  have h := Nat.and_pow_two_sub_one_eq_mod (x >>> 12) 12
  norm_num at h
  rw [h]
  omega

theorem page_def (x : Nat) : x >>> 12 &&& 4095 = page x := rfl

theorem shr6 (p : Nat) : p >>> 6 = p / 64 := by
  rw [Nat.shiftRight_eq_div_pow]

theorem and63 (p : Nat) : p &&& 63 = p % 64 := by
  have h := Nat.and_pow_two_sub_one_eq_mod p 6
  norm_num at h
  exact h

theorem is_page_tracked_eq (s : State) (a : Nat) :
    memtrace_is_page_tracked s a
      = (s.memtrace_track_pages (page a / 64)).testBit (page a % 64) := by
  unfold memtrace_is_page_tracked
  show ((s.memtrace_track_pages (page a >>> 6)
    &&& ((1 <<< (page a &&& 63)) % 18446744073709551616)) != 0) = _
  rw [shr6, and63, Nat.one_shiftLeft]
  have hb : page a % 64 < 64 := Nat.mod_lt _ (by norm_num)
  have h2 : 2 ^ (page a % 64) < 18446744073709551616 := by
    have : 2 ^ (page a % 64) < 2 ^ 64 := Nat.pow_lt_pow_right (by norm_num) hb
    norm_num at this
    exact this
  rw [Nat.mod_eq_of_lt h2, and_two_pow_ne_zero]

theorem start_mask_testBit (b0 b : Nat) (hb : b < 64) :
    ((18446744073709551615 <<< b0) % 18446744073709551616).testBit b = decide (b0 ≤ b) := by
  have e1 : (18446744073709551616 : Nat) = 2 ^ 64 := by norm_num
  have e2 : (18446744073709551615 : Nat) = 2 ^ 64 - 1 := by norm_num
  rw [e1, e2, Nat.testBit_mod_two_pow, Nat.testBit_shiftLeft, Nat.testBit_two_pow_sub_one]
  by_cases h : b0 ≤ b
  · have h3 : b - b0 < 64 := by omega
    simp [hb, h, h3]
  · simp [h]

theorem end_mask_testBit (b1 b : Nat) (hb1 : b1 < 64) (hb : b < 64) :
    (if b1 = 63 then 18446744073709551615
      else ((1 <<< (b1 + 1)) % 18446744073709551616 + 18446744073709551616 - 1)
             % 18446744073709551616).testBit b = decide (b ≤ b1) := by
  have e2 : (18446744073709551615 : Nat) = 2 ^ 64 - 1 := by norm_num
  by_cases h63 : b1 = 63
  · rw [if_pos h63, e2, Nat.testBit_two_pow_sub_one]
    have : b ≤ b1 := by omega
    simp [hb, this]
  · rw [if_neg h63, Nat.one_shiftLeft]
    have hlt : 2 ^ (b1 + 1) < 18446744073709551616 := by
      have : 2 ^ (b1 + 1) < 2 ^ 64 := Nat.pow_lt_pow_right (by norm_num) (by omega)
      norm_num at this
      exact this
    have hpos : 0 < 2 ^ (b1 + 1) := by positivity
    have e : (2 ^ (b1 + 1) % 18446744073709551616 + 18446744073709551616 - 1)
        % 18446744073709551616 = 2 ^ (b1 + 1) - 1 := by
      rw [Nat.mod_eq_of_lt hlt]
      omega
    rw [e, Nat.testBit_two_pow_sub_one]
    by_cases h : b ≤ b1
    · have : b < b1 + 1 := by omega
      simp [h, this]
    · have : ¬ b < b1 + 1 := by omega
      simp [h, this]

theorem not64_testBit (m b : Nat) (hb : b < 64) :
    (not64 m).testBit b = !m.testBit b := by
  unfold not64
  have e1 : (18446744073709551616 : Nat) = 2 ^ 64 := by norm_num
  have hlt : m % 18446744073709551616 < 2 ^ 64 := by
    rw [← e1]; exact Nat.mod_lt _ (by norm_num)
  have e : 18446744073709551615 - m % 18446744073709551616
      = 2 ^ 64 - (m % 18446744073709551616 + 1) := by
    rw [← e1]; omega
  rw [e, Nat.testBit_two_pow_sub_succ hlt, e1, Nat.testBit_mod_two_pow]
  simp [hb]

theorem fill_testBit (enable : Bool) (b : Nat) (hb : b < 64) :
    (if enable then 18446744073709551615 else 0 : Nat).testBit b = enable := by
  have e2 : (18446744073709551615 : Nat) = 2 ^ 64 - 1 := by norm_num
  cases enable
  · simp
  · simp only [if_true]
    rw [e2, Nat.testBit_two_pow_sub_one]
    simp [hb]

/-- The interior loop stores `fill` into the words `w .. w1 - 1` and nothing else. -/
theorem subscribe_fill_spec (fill w1 : Nat) :
    ∀ (fuel w : Nat) (pages : Nat → Nat), w1 - w < fuel →
      subscribe_fill fill w1 fuel w pages
        = some (fun j => if w ≤ j ∧ j < w1 then fill else pages j) := by
  intro fuel
  induction fuel with
  | zero => intro w pages h; omega
  | succ f ih =>
    intro w pages h
    unfold subscribe_fill
    by_cases hw : w < w1
    · rw [if_pos hw, ih (w + 1) _ (by omega)]
      congr 1
      funext j
      unfold setWord
      by_cases h1 : w + 1 ≤ j ∧ j < w1
      · rw [if_pos h1, if_pos (by omega)]
      · rw [if_neg h1]
        by_cases h2 : j = w
        · rw [if_pos h2, if_pos (by omega)]
        · rw [if_neg h2, if_neg (by omega)]
    · rw [if_neg hw]
      congr 1
      funext j
      rw [if_neg (by omega)]

/-- The three-part update of one range of bits, word by word: what
`memtrace_subscribe_range` leaves in word `w` at bit `b`. -/
theorem subscribe_range_bit (s : State) (low high : Nat) (e : Bool) (w b : Nat) (hb : b < 64)
    (hle : page low ≤ page high) :
    ((memtrace_subscribe_range s low high e).memtrace_track_pages w).testBit b
      = if page low ≤ 64 * w + b ∧ 64 * w + b ≤ page high then e
        else (s.memtrace_track_pages w).testBit b := by
  have hp0 := page_lt low
  have hp1 := page_lt high
  unfold memtrace_subscribe_range
  simp only [page_def, shr6, and63]
  generalize page low = p0 at *
  generalize page high = p1 at *
  have hb1 : p1 % 64 < 64 := Nat.mod_lt _ (by norm_num)
  have tb_and : ∀ x m : Nat, (x &&& not64 m).testBit b = (x.testBit b && !m.testBit b) := by
    intro x m; rw [Nat.testBit_and, not64_testBit _ _ hb]
  by_cases hw : p0 / 64 = p1 / 64
  · simp only [hw, if_true]
    by_cases hwa : w = p1 / 64
    · have hin : (p0 ≤ 64 * w + b ∧ 64 * w + b ≤ p1) ↔ (p0 % 64 ≤ b ∧ b ≤ p1 % 64) := by omega
      subst hwa
      cases e
      · unfold setWord
        simp only [Bool.false_eq_true, if_false, if_true, tb_and, Nat.testBit_and,
          start_mask_testBit _ _ hb, end_mask_testBit _ _ hb1 hb, hin]
        by_cases h1 : p0 % 64 ≤ b <;> by_cases h2 : b ≤ p1 % 64 <;> simp [h1, h2]
      · unfold setWord
        simp only [if_true, Nat.testBit_or, Nat.testBit_and,
          start_mask_testBit _ _ hb, end_mask_testBit _ _ hb1 hb, hin]
        by_cases h1 : p0 % 64 ≤ b <;> by_cases h2 : b ≤ p1 % 64 <;> simp [h1, h2]
    · have hin : ¬ (p0 ≤ 64 * w + b ∧ 64 * w + b ≤ p1) := by omega
      cases e <;> unfold setWord <;>
        simp only [Bool.false_eq_true, if_false, if_true, hwa, hin]
  · have hw01 : p0 / 64 < p1 / 64 := by omega
    have hmod : (p0 / 64 + 1) % 4294967296 = p0 / 64 + 1 := by omega
    simp only [hw, if_false, hmod]
    rw [subscribe_fill_spec _ _ 65 _ _ (by omega)]
    have hne : ¬ (p1 / 64 = p0 / 64) := by omega
    have hnb : ¬ (p0 / 64 + 1 ≤ p1 / 64 ∧ p1 / 64 < p1 / 64) := by omega
    by_cases hw1 : w = p1 / 64
    · have hin : (p0 ≤ 64 * w + b ∧ 64 * w + b ≤ p1) ↔ b ≤ p1 % 64 := by omega
      subst hw1
      cases e
      · unfold setWord
        simp only [Bool.false_eq_true, if_false, if_true, hnb, hne, tb_and,
          end_mask_testBit _ _ hb1 hb, hin]
        by_cases h2 : b ≤ p1 % 64 <;> simp [h2]
      · unfold setWord
        simp only [if_true, hnb, hne, if_false, Nat.testBit_or,
          end_mask_testBit _ _ hb1 hb, hin]
        by_cases h2 : b ≤ p1 % 64 <;> simp [h2]
    · by_cases hmid : p0 / 64 + 1 ≤ w ∧ w < p1 / 64
      · have hin : p0 ≤ 64 * w + b ∧ 64 * w + b ≤ p1 := by omega
        have hf := fill_testBit e b hb
        cases e <;> unfold setWord <;>
          simp only [Bool.false_eq_true, hw1, if_false, hmid, and_self, if_true, hin] <;>
          exact hf
      · by_cases hw0 : w = p0 / 64
        · have hin : (p0 ≤ 64 * w + b ∧ 64 * w + b ≤ p1) ↔ p0 % 64 ≤ b := by omega
          have hmid' : ¬ (w + 1 ≤ w ∧ w < p1 / 64) := by omega
          subst hw0
          cases e
          · unfold setWord
            simp only [Bool.false_eq_true, if_false, hw1, hmid', if_true, tb_and,
              start_mask_testBit _ _ hb, hin]
            by_cases h1 : p0 % 64 ≤ b <;> simp [h1]
          · unfold setWord
            simp only [if_true, hw1, hmid', if_false, Nat.testBit_or,
              start_mask_testBit _ _ hb, hin]
            by_cases h1 : p0 % 64 ≤ b <;> simp [h1]
        · have hin : ¬ (p0 ≤ 64 * w + b ∧ 64 * w + b ≤ p1) := by omega
          cases e <;> unfold setWord <;>
            simp only [Bool.false_eq_true, if_false, if_true, hw1, hmid, hw0, hin]

theorem set_page_bit (pages : Nat → Nat) (p : Nat) (e : Bool) (w b : Nat) (hb : b < 64) :
    (set_page pages p e w).testBit b
      = if 64 * w + b = p then e else (pages w).testBit b := by
  unfold set_page setWord
  by_cases hw : w = p / 64
  · subst hw
    have hiff : (64 * (p / 64) + b = p) ↔ (p % 64 = b) := by omega
    cases e
    · simp only [Bool.false_eq_true, if_false, if_true, Nat.testBit_and, not64_testBit _ _ hb,
        Nat.testBit_two_pow, hiff]
      by_cases h : p % 64 = b <;> simp [h]
    · simp only [if_true, Nat.testBit_or, Nat.testBit_two_pow, hiff]
      by_cases h : p % 64 = b <;> simp [h]
  · have hne : ¬ (64 * w + b = p) := by omega
    rw [if_neg hw, if_neg hne]

theorem set_pages_each_bit (e : Bool) (w b : Nat) (hb : b < 64) :
    ∀ (n p0 : Nat) (pages : Nat → Nat),
      (set_pages_each pages p0 n e w).testBit b
        = if p0 ≤ 64 * w + b ∧ 64 * w + b < p0 + n then e else (pages w).testBit b := by
  intro n
  induction n with
  | zero =>
    intro p0 pages
    have : ¬ (p0 ≤ 64 * w + b ∧ 64 * w + b < p0 + 0) := by omega
    rw [if_neg this]
    rfl
  | succ n ih =>
    intro p0 pages
    unfold set_pages_each
    rw [List.range'_succ, List.foldl_cons]
    have h := ih (p0 + 1) (set_page pages p0 e)
    unfold set_pages_each at h
    rw [h, set_page_bit pages p0 e w b hb]
    by_cases h1 : p0 + 1 ≤ 64 * w + b ∧ 64 * w + b < p0 + 1 + n
    · rw [if_pos h1, if_pos (by omega)]
    · rw [if_neg h1]
      by_cases h2 : 64 * w + b = p0
      · rw [if_pos h2, if_pos (by omega)]
      · rw [if_neg h2, if_neg (by omega)]

theorem subscribe_range_eq_each (s : State) (low high : Nat) (e : Bool) (a : Nat)
    (hle : page low ≤ page high) :
    memtrace_is_page_tracked (memtrace_subscribe_range s low high e) a
      = memtrace_is_page_tracked
          { s with memtrace_track_pages :=
              set_pages_each s.memtrace_track_pages (page low) (page high - page low + 1) e } a := by
  have hb : page a % 64 < 64 := Nat.mod_lt _ (by norm_num)
  rw [is_page_tracked_eq, is_page_tracked_eq, subscribe_range_bit s low high e _ _ hb hle]
  show _ = (set_pages_each s.memtrace_track_pages (page low) (page high - page low + 1) e
    (page a / 64)).testBit (page a % 64)
  rw [set_pages_each_bit e _ _ hb]
  by_cases h : page low ≤ 64 * (page a / 64) + page a % 64 ∧
      64 * (page a / 64) + page a % 64 ≤ page high
  · rw [if_pos h, if_pos (by omega)]
  · rw [if_neg h, if_neg (by omega)]

/-! ## `roundup_pow2_u32` and `memtrace_init` -/

/-- One step `y |= y >> j` of the bit smearing: if the top `j` bits below
position `m + 1` are set, afterwards the top `2 * j` are. -/
theorem smear_step (m j y : Nat) (hy : y < 2 ^ (m + 1))
    (htop : ∀ i, i ≤ m → m < i + j → y.testBit i = true) :
    (y ||| (y >>> j)) < 2 ^ (m + 1) ∧
    ∀ i, i ≤ m → m < i + 2 * j → (y ||| (y >>> j)).testBit i = true := by
  constructor
  · apply Nat.or_lt_two_pow hy
    rw [Nat.shiftRight_eq_div_pow]
    exact lt_of_le_of_lt (Nat.div_le_self _ _) hy
  · intro i hi hlt
    rw [Nat.testBit_or, Nat.testBit_shiftRight]
    by_cases h : m < i + j
    · rw [htop i hi h]; rfl
    · rw [htop (j + i) (by omega) (by omega)]
      simp

/-- For `2 ≤ v ≤ 2 ^ 31` the result of `roundup_pow2_u32` is the least power of
two that is at least `v`. -/
theorem roundup_pow2_u32_spec (v : Nat) (h2 : 2 ≤ v) (h31 : v ≤ 2147483648) :
    ∃ k, 1 ≤ k ∧ k ≤ 31 ∧ roundup_pow2_u32 v = 2 ^ k ∧ v ≤ 2 ^ k ∧ 2 ^ (k - 1) < v := by
  have hx0 : v - 1 ≠ 0 := by omega
  obtain ⟨m, hm⟩ : ∃ m, m = Nat.log2 (v - 1) := ⟨_, rfl⟩
  have hlo : 2 ^ m ≤ v - 1 := by rw [hm]; exact Nat.log2_self_le hx0
  have hhi : v - 1 < 2 ^ (m + 1) := by rw [hm]; exact Nat.lt_log2_self
  have hm31 : m ≤ 30 := by
    by_contra hc
    have : 2 ^ 31 ≤ 2 ^ m := Nat.pow_le_pow_right (by norm_num) (by omega)
    norm_num at this
    omega
  have h0 : ∀ i, i ≤ m → m < i + 1 → (v - 1).testBit i = true := by
    intro i hi hlt
    have : i = m := by omega
    subst this
    rw [Nat.testBit_to_div_mod]
    have hd : (v - 1) / 2 ^ i = 1 := by
      apply Nat.div_eq_of_lt_le
      · simpa using hlo
      · rw [Nat.pow_succ] at hhi; omega
    rw [hd]; rfl
  obtain ⟨b1, t1⟩ := smear_step m 1 _ hhi h0
  obtain ⟨b2, t2⟩ := smear_step m 2 _ b1 t1
  obtain ⟨b3, t3⟩ := smear_step m 4 _ b2 t2
  obtain ⟨b4, t4⟩ := smear_step m 8 _ b3 t3
  obtain ⟨b5, t5⟩ := smear_step m 16 _ b4 t4
  have hval : ∀ y, y < 2 ^ (m + 1) → (∀ i, i ≤ m → m < i + 2 * 16 → y.testBit i = true) →
      y = 2 ^ (m + 1) - 1 := by
    intro y hy ht
    apply Nat.eq_of_testBit_eq
    intro i
    rw [Nat.testBit_two_pow_sub_one]
    by_cases hi : i < m + 1
    · rw [ht i (by omega) (by omega)]; simp [hi]
    · have : y < 2 ^ i := lt_of_lt_of_le hy (Nat.pow_le_pow_right (by norm_num) (by omega))
      rw [Nat.testBit_lt_two_pow this]; simp [hi]
  have hsm := hval _ b5 t5
  have hpow : 2 ^ (m + 1) ≤ 2147483648 := by
    have : 2 ^ (m + 1) ≤ 2 ^ 31 := Nat.pow_le_pow_right (by norm_num) (by omega)
    norm_num at this
    exact this
  have hpos : 0 < 2 ^ (m + 1) := by positivity
  refine ⟨m + 1, by omega, by omega, ?_, by omega, ?_⟩
  · unfold roundup_pow2_u32
    rw [if_neg (by omega)]
    simp only []
    rw [hsm]
    omega
  · simp only [Nat.add_sub_cancel]
    omega

/-- For a request of at most `2 ^ 31` bytes a successful `memtrace_init` from
the unallocated state gives a capacity `2 ^ k`, `1 ≤ k ≤ 31`: 1 MiB for a
request of 0, otherwise the least power of two that is at least 2 and at least
the request. -/
theorem init_capacity_in_range (s : State) (hs : s.mt_buf = none) (capacity_bytes : Nat)
    (alloc : Nat → Option Mem) (hreq : capacity_bytes ≤ 2147483648)
    (hok : (memtrace_init s capacity_bytes alloc).mt_buf ≠ none) :
    ∃ k, 1 ≤ k ∧ k ≤ 31 ∧ mt_capacity (memtrace_init s capacity_bytes alloc) = 2 ^ k ∧
      (capacity_bytes = 0 → 2 ^ k = 1048576) ∧
      (capacity_bytes ≠ 0 → capacity_bytes ≤ 2 ^ k ∧ (2 < capacity_bytes → 2 ^ (k - 1) < capacity_bytes) ∧
        (capacity_bytes ≤ 2 → k = 1)) := by
  obtain ⟨v, hv⟩ : ∃ v, v = (if capacity_bytes ≠ 0 then capacity_bytes else 1048576) % 4294967296 :=
    ⟨_, rfl⟩
  have hcap : ∀ k, 1 ≤ k → k ≤ 31 → roundup_pow2_u32 v = 2 ^ k →
      mt_capacity (memtrace_init s capacity_bytes alloc) = 2 ^ k := by
    intro k hk1 hk31 hr
    have h2 := two_le_pow hk1
    have h31 := pow_le_u31 hk31
    unfold memtrace_init at hok ⊢
    rw [hs] at hok ⊢
    simp only [← hv] at hok ⊢
    cases ha : alloc (roundup_pow2_u32 v) with
    | none => rw [ha] at hok; exact absurd rfl hok
    | some m =>
      show (((roundup_pow2_u32 v) + 4294967296 - 1) % 4294967296 + 1) % 4294967296 = 2 ^ k
      rw [hr]; omega
  by_cases h0 : capacity_bytes = 0
  · have hv' : v = 1048576 := by rw [hv, if_neg (by simpa using h0)]
    have hr : roundup_pow2_u32 v = 2 ^ 20 := by rw [hv']; decide
    exact ⟨20, by omega, by omega, hcap 20 (by omega) (by omega) hr, fun _ => by norm_num,
      fun h => absurd h0 h⟩
  · have hv' : v = capacity_bytes := by rw [hv, if_pos h0]; omega
    by_cases hsmall : capacity_bytes ≤ 2
    · have hr : roundup_pow2_u32 v = 2 ^ 1 := by
        rw [hv']
        have : capacity_bytes = 1 ∨ capacity_bytes = 2 := by omega
        rcases this with h | h <;> rw [h] <;> decide
      exact ⟨1, by omega, by omega, hcap 1 (by omega) (by omega) hr, fun h => absurd h h0,
        fun _ => ⟨by omega, fun h => by omega, fun _ => rfl⟩⟩
    · obtain ⟨k, hk1, hk31, hr, hle, hlt⟩ := roundup_pow2_u32_spec v (by omega) (by omega)
      rw [hv'] at hle hlt
      exact ⟨k, hk1, hk31, hcap k hk1 hk31 hr, fun h => absurd h h0,
        fun _ => ⟨hle, fun _ => hlt, fun h => absurd h hsmall⟩⟩

/-! ## Unallocated storage -/

/-- While `mt_buf` is `NULL`, `emitByte`, `emitErase` and `drain` do nothing:
`mt_try_write` and `memtrace_drain` test the pointer first. -/
theorem unallocated_try_write_drain_inert (s : State) (h : s.mt_buf = none) :
    (∀ addr value cycles, memtrace_emit_byte s addr value cycles = s) ∧
    (∀ addr len cycles, memtrace_emit_erase s addr len cycles = s) ∧
    (∀ max_bytes, memtrace_drain s max_bytes = { ret := 0, dst := [], st := s }) := by
  refine ⟨?_, ?_, ?_⟩
  · intro a v c
    unfold memtrace_emit_byte mt_try_write
    rw [h]
    split <;> rfl
  · intro a l c
    unfold memtrace_emit_erase mt_try_write
    rw [h]
    split <;> rfl
  · intro m
    unfold memtrace_drain
    rw [h]

/-- `memtrace_emit_run` does not test `mt_buf`: in every unallocated state as
`memtrace_free` or a failed `memtrace_init` leave it (mask 0, head equal to
tail), with tracing enabled, a run of `len ≥ 1` bytes counts a drop. -/
theorem unallocated_emit_run_counts_drop (s : State) (_hbuf : s.mt_buf = none)
    (hmask : s.mt_mask = 0) (hht : s.mt_head = s.mt_tail)
    (hen : s.mt_enabled ≠ 0) (addr : Nat) (src : Mem) (len cycles : Nat) (hlen : 1 ≤ len) :
    memtrace_emit_run s addr src len cycles
      = { s with mt_dropped := (s.mt_dropped + 1) % 18446744073709551616 } := by
  unfold memtrace_emit_run
  rw [if_neg (by omega)]
  have hlt : 0 < len := hlen
  have hused : mt_used_relaxed s.mt_head s.mt_tail = 0 := by
    rw [← hht]; unfold mt_used_relaxed; omega
  have hfree : (mt_capacity s + 4294967296 - 0) % 4294967296
      ≤ (12 + if len - 0 > 1024 then 1024 else len - 0) % 4294967296 := by
    unfold mt_capacity; rw [hmask]; split <;> omega
  simp only [emit_run_loop, hlt, if_true, hused, hfree]

/-! ## Properties -/

/-- C1: on a ring of power-of-two capacity `2 ^ k`, `1 ≤ k ≤ 31`, that starts
empty, after any sequence of `emitByte`, `emitRun`, `emitErase` and `drain`
calls the concatenation of all drained bytes is a prefix of the concatenation of
the records of the accepted emits; what is missing from it is exactly what is
still buffered, so every drained byte was written by an accepted emit, in write
order, also across the wrap of the backing array and of the cursors. -/
theorem drained_is_prefix_of_accepted (s : State) (k : Nat) (buf : Mem) (r : Ring s k buf)
    (hempty : s.mt_tail = s.mt_head) (ops : List Op) :
    (run_ops s ops).drained <+: (run_ops s ops).accepted ∧
    (run_ops s ops).drained ++ visible (run_ops s ops).st = (run_ops s ops).accepted := by
  have h := run_ops_inv s k buf r hempty ops
  exact ⟨⟨_, h⟩, h⟩

/-- A ring of 32 bytes whose cursors are about to wrap past `2 ^ 32`, and calls
on it that wrap the array, reject one record and drain twice. -/
theorem drained_is_prefix_of_accepted_witness :
    Ring ring32_wrapping 5 (fun _ => 0) ∧ ring32_wrapping.mt_tail = ring32_wrapping.mt_head ∧
    ((run_ops ring32_wrapping example_calls).drained
        <+: (run_ops ring32_wrapping example_calls).accepted ∧
      (run_ops ring32_wrapping example_calls).drained
          ++ visible (run_ops ring32_wrapping example_calls).st
        = (run_ops ring32_wrapping example_calls).accepted) :=
  ⟨ring32_wrapping_ring, rfl,
   drained_is_prefix_of_accepted ring32_wrapping 5 _ ring32_wrapping_ring rfl example_calls⟩

/-- C2: `emitRun` is all-or-nothing.  On an enabled ring (capacity `2 ^ k`,
`head - tail ≤ capacity`), when some chunk `i` of the run does not fit in what
is left after the chunks before it (`free - 1036 * i ≤ 12 + length of chunk i`),
the call changes only the backing store outside the buffered bytes and the drop
counter: head and tail are unchanged, `mt_dropped` is incremented once (as a
`uint64_t`, so by exactly 1 below `2 ^ 64 - 1`), the buffered bytes are the
same, and a drain that follows returns the same count and the same bytes and
leaves the same tail as a drain without the call. -/
theorem emit_run_all_or_nothing (s : State) (k : Nat) (buf : Mem) (r : Ring s k buf)
    (hen : s.mt_enabled ≠ 0) (addr : Nat) (src : Mem) (len cycles i : Nat)
    (hi : 1024 * i < len)
    (hfail : mt_free s - 1036 * i ≤ 12 + run_chunk_len len i) :
    (∃ buf', memtrace_emit_run s addr src len cycles
        = { s with mt_buf := some buf',
                   mt_dropped := (s.mt_dropped + 1) % 18446744073709551616 }) ∧
    (memtrace_emit_run s addr src len cycles).mt_head = s.mt_head ∧
    (memtrace_emit_run s addr src len cycles).mt_tail = s.mt_tail ∧
    (memtrace_emit_run s addr src len cycles).mt_dropped
      = (s.mt_dropped + 1) % 18446744073709551616 ∧
    (s.mt_dropped + 1 < 18446744073709551616 →
      (memtrace_emit_run s addr src len cycles).mt_dropped = s.mt_dropped + 1) ∧
    visible (memtrace_emit_run s addr src len cycles) = visible s ∧
    ∀ max_bytes,
      (memtrace_drain (memtrace_emit_run s addr src len cycles) max_bytes).ret
        = (memtrace_drain s max_bytes).ret ∧
      (memtrace_drain (memtrace_emit_run s addr src len cycles) max_bytes).dst
        = (memtrace_drain s max_bytes).dst ∧
      (memtrace_drain (memtrace_emit_run s addr src len cycles) max_bytes).st.mt_tail
        = (memtrace_drain s max_bytes).st.mt_tail := by
  obtain ⟨buf', _, hdrop⟩ := emit_run_ring r hen addr src len cycles (by omega)
  have hnofit : mt_free s ≤ len + 12 * run_chunks len := by
    unfold run_chunk_len at hfail
    unfold run_chunks
    omega
  obtain ⟨e, hr, hv⟩ := hdrop hnofit
  have hhead : (memtrace_emit_run s addr src len cycles).mt_head = s.mt_head := by rw [e]
  have htail : (memtrace_emit_run s addr src len cycles).mt_tail = s.mt_tail := by rw [e]
  refine ⟨⟨buf', e⟩, hhead, htail, by rw [e], ?_, hv, ?_⟩
  · intro hd
    rw [e]
    exact Nat.mod_eq_of_lt hd
  intro m
  obtain ⟨h1, h2, h3, _, _⟩ := drain_spec hr m
  obtain ⟨g1, g2, g3, _, _⟩ := drain_spec r m
  rw [h1, h2, h3, g1, g2, g3, hv, hhead, htail]
  exact ⟨rfl, rfl, rfl⟩

/-- A 3000-byte run on a 4096-byte ring holding 1100 bytes: chunks 0 and 1 fit,
chunk 2 does not, and one drop is counted. -/
theorem emit_run_all_or_nothing_witness :
    Ring ring4096 12 (fun j => j % 251) ∧
    ring4096.mt_enabled ≠ 0 ∧ 1024 * 2 < 3000 ∧
    ¬ (mt_free ring4096 - 1036 * 0 ≤ 12 + run_chunk_len 3000 0) ∧
    ¬ (mt_free ring4096 - 1036 * 1 ≤ 12 + run_chunk_len 3000 1) ∧
    mt_free ring4096 - 1036 * 2 ≤ 12 + run_chunk_len 3000 2 ∧
    (memtrace_emit_run ring4096 0xD00000 (fun j => j % 256) 3000 77).mt_dropped = 1 :=
  ⟨ring4096_ring, by decide, by decide, by decide, by decide, by decide,
   (emit_run_all_or_nothing ring4096 12 _ ring4096_ring (by decide) 0xD00000
      (fun j => j % 256) 3000 77 2 (by decide) (by decide)).2.2.2.1⟩

/-- C3: on an enabled state with allocated storage, an `emitByte` (record
length 13) or `emitErase` (record length 12) issued when
`capacity - (head - tail) ≤ L` (free space as the code computes it, on
`uint32_t`) is rejected in full: the state afterwards is the state before with
only `mt_dropped` incremented (as a `uint64_t`, so by exactly 1 below
`2 ^ 64 - 1`), so the backing store, head and tail are unchanged. -/
theorem emit_rejected_in_full (s : State) (buf : Mem)
    (hbuf : s.mt_buf = some buf) (hen : s.mt_enabled ≠ 0) :
    (mt_free s ≤ 13 → ∀ addr value cycles,
        memtrace_emit_byte s addr value cycles
          = { s with mt_dropped := (s.mt_dropped + 1) % 18446744073709551616 } ∧
        (s.mt_dropped + 1 < 18446744073709551616 →
          memtrace_dropped (memtrace_emit_byte s addr value cycles) = s.mt_dropped + 1)) ∧
    (mt_free s ≤ 12 → ∀ addr len cycles,
        memtrace_emit_erase s addr len cycles
          = { s with mt_dropped := (s.mt_dropped + 1) % 18446744073709551616 } ∧
        (s.mt_dropped + 1 < 18446744073709551616 →
          memtrace_dropped (memtrace_emit_erase s addr len cycles) = s.mt_dropped + 1)) := by
  constructor
  · intro hfree addr value cycles
    rw [emit_byte_eq s addr value cycles hen, mt_try_write_reject s buf _ 13 hbuf hfree]
    exact ⟨rfl, fun hd => Nat.mod_eq_of_lt hd⟩
  · intro hfree addr len cycles
    rw [emit_erase_eq s addr len cycles hen, mt_try_write_reject s buf _ 12 hbuf hfree]
    exact ⟨rfl, fun hd => Nat.mod_eq_of_lt hd⟩

/-- With 12 bytes free both a byte write and an erase are rejected and counted:
the drop count goes from 4 to 5. -/
theorem emit_rejected_in_full_witness :
    ring32_used20.mt_buf = some (fun _ => 0) ∧ ring32_used20.mt_enabled ≠ 0 ∧
    mt_free ring32_used20 ≤ 13 ∧ mt_free ring32_used20 ≤ 12 ∧
    ring32_used20.mt_dropped + 1 < 18446744073709551616 ∧
    memtrace_emit_byte ring32_used20 0x1234 0xAB 100
      = { ring32_used20 with mt_dropped := 5 } ∧
    memtrace_dropped (memtrace_emit_byte ring32_used20 0x1234 0xAB 100) = 5 ∧
    memtrace_emit_erase ring32_used20 0x20000 4096 100
      = { ring32_used20 with mt_dropped := 5 } ∧
    memtrace_dropped (memtrace_emit_erase ring32_used20 0x20000 4096 100) = 5 :=
  ⟨rfl, by decide, by decide, by decide, by decide,
   ((emit_rejected_in_full ring32_used20 _ rfl (by decide)).1 (by decide) 0x1234 0xAB 100).1,
   ((emit_rejected_in_full ring32_used20 _ rfl (by decide)).1 (by decide) 0x1234 0xAB 100).2
     (by decide),
   ((emit_rejected_in_full ring32_used20 _ rfl (by decide)).2 (by decide) 0x20000 4096 100).1,
   ((emit_rejected_in_full ring32_used20 _ rfl (by decide)).2 (by decide) 0x20000 4096 100).2
     (by decide)⟩

/-- C4: on an enabled ring, a run of `len ≥ 1` bytes whose records fit
(`len + 12 * ceil(len / 1024) < free`) is appended as exactly
`ceil(len / 1024)` consecutive Run records and nothing else.  Record `i` is 12
header bytes that read back as type 2, reserved 0, length
`min 1024 (len - 1024 * i)`, address `addr + 1024 * i` modulo `2 ^ 32` and the
common `cycles`, followed by the bytes `1024 * i ..` of the run; the payloads
concatenated are the run.  The head advances once by
`len + 12 * ceil(len / 1024)` (as a `uint32_t`); tail and drop counter are
unchanged.  The appended bytes are what a drain returns after the bytes
buffered before. -/
theorem emit_run_appends_records (s : State) (k : Nat) (buf : Mem) (r : Ring s k buf)
    (hen : s.mt_enabled ≠ 0) (addr : Nat) (src : Mem) (len cycles : Nat) (hlen : 1 ≤ len)
    (hcyc : cycles < 4294967296)
    (hfit : len + 12 * run_chunks len < mt_free s) :
    (∃ buf', memtrace_emit_run s addr src len cycles
        = { s with mt_buf := some buf',
                   mt_head := (s.mt_head + (len + 12 * run_chunks len)) % 4294967296 }) ∧
    (memtrace_emit_run s addr src len cycles).mt_head
      = (s.mt_head + (len + 12 * run_chunks len)) % 4294967296 ∧
    (memtrace_emit_run s addr src len cycles).mt_tail = s.mt_tail ∧
    (memtrace_emit_run s addr src len cycles).mt_dropped = s.mt_dropped ∧
    visible (memtrace_emit_run s addr src len cycles)
      = visible s ++ (List.range ((len + 1023) / 1024)).flatMap
          (run_record addr src len cycles) ∧
    (∀ max_bytes, (memtrace_drain (memtrace_emit_run s addr src len cycles) max_bytes).dst
      = (visible s ++ (List.range ((len + 1023) / 1024)).flatMap
          (run_record addr src len cycles)).take max_bytes) ∧
    (∀ i, (run_record addr src len cycles i).length = 12 + min 1024 (len - 1024 * i) ∧
      parse_hdr (run_record addr src len cycles i)
        = { type := 2, reserved := 0, length := min 1024 (len - 1024 * i),
            address := (addr + 1024 * i) % 4294967296, cycles := cycles } ∧
      parse_payload (run_record addr src len cycles i)
        = (List.range (min 1024 (len - 1024 * i))).map (fun j => src (1024 * i + j))) ∧
    (List.range ((len + 1023) / 1024)).flatMap
        (fun i => parse_payload (run_record addr src len cycles i))
      = (List.range len).map src := by
  obtain ⟨buf', hok, _⟩ := emit_run_ring r hen addr src len cycles hlen
  obtain ⟨e, hr, hv⟩ := hok hfit
  have hpay : ∀ i, parse_payload (run_record addr src len cycles i)
        = (List.range (min 1024 (len - 1024 * i))).map (fun j => src (1024 * i + j)) := by
    intro i
    have hle := run_chunk_len_le len i
    unfold parse_payload run_record
    rw [parse_hdr_bytes, drop_hdr_bytes]
    show List.take (run_chunk_len len i % 65536) _ = _
    rw [List.take_of_length_le (by simp; omega)]
    rfl
  refine ⟨⟨buf', e⟩, by rw [e], by rw [e], by rw [e], hv, ?_, ?_, ?_⟩
  · intro m
    rw [(drain_spec hr m).2.1, hv]
    rfl
  · intro i
    have hle := run_chunk_len_le len i
    refine ⟨?_, ?_, hpay i⟩
    · simp only [run_record, List.length_append, hdr_bytes_length, List.length_map,
        List.length_range, run_chunk_len]
    · unfold run_record
      rw [parse_hdr_bytes]
      simp only [MT_EVT_RUN, Hdr.mk.injEq]
      unfold run_chunk_len at hle ⊢
      refine ⟨by norm_num, by norm_num, by omega, by omega, by omega⟩
  · simp only [hpay]
    have := run_payloads_concat src len ((len + 1023) / 1024)
    unfold run_chunk_len at this
    rw [this]
    congr 2
    omega

/-- A 1500-byte run on the 4096-byte ring holding 1100 bytes: two records,
1524 bytes, head from 1100 to 2624. -/
theorem emit_run_appends_records_witness :
    Ring ring4096 12 (fun j => j % 251) ∧ ring4096.mt_enabled ≠ 0 ∧ 1 ≤ 1500 ∧
    77 < 4294967296 ∧ 1500 + 12 * run_chunks 1500 < mt_free ring4096 ∧
    (memtrace_emit_run ring4096 0xD00000 (fun j => j % 256) 1500 77).mt_head
      = (ring4096.mt_head + (1500 + 12 * run_chunks 1500)) % 4294967296 :=
  ⟨ring4096_ring, by decide, by decide, by decide, by decide,
   (emit_run_appends_records ring4096 12 _ ring4096_ring (by decide) 0xD00000
      (fun j => j % 256) 1500 77 (by decide) (by decide) (by decide)).2.1⟩

/-- C5: round trip of a byte write.  On an enabled, empty ring of capacity above
13, `emitByte(addr, value, cycles)` followed by a drain of at least 13 bytes
returns exactly the 13 bytes of the record, which read back as a header with
type 1, reserved 0, length 1, the address and the cycle count, followed by the
one payload byte `value`. -/
theorem emit_byte_round_trip (s : State) (k : Nat) (buf : Mem) (r : Ring s k buf)
    (hen : s.mt_enabled ≠ 0) (hempty : s.mt_tail = s.mt_head) (hcap : 13 < mt_capacity s)
    (addr value cycles max_bytes : Nat)
    (haddr : addr < 4294967296) (hvalue : value < 256) (hcyc : cycles < 4294967296)
    (hmax : 13 ≤ max_bytes) :
    (memtrace_drain (memtrace_emit_byte s addr value cycles) max_bytes).ret = 13 ∧
    (memtrace_drain (memtrace_emit_byte s addr value cycles) max_bytes).dst
      = hdr_bytes 1 0 1 addr cycles ++ [value] ∧
    parse_hdr (memtrace_drain (memtrace_emit_byte s addr value cycles) max_bytes).dst
      = { type := 1, reserved := 0, length := 1, address := addr, cycles := cycles } ∧
    parse_payload (memtrace_drain (memtrace_emit_byte s addr value cycles) max_bytes).dst
      = [value] := by
  have hh := r.hhead
  have h31 := pow_le_u31 r.hk
  have hu0 : mt_used_relaxed s.mt_head s.mt_tail = 0 := by
    rw [hempty]; unfold mt_used_relaxed; omega
  have hfree : 13 < mt_free s := by
    rw [r.free_eq, hu0, ← r.capacity]; exact hcap
  have hvis0 : visible s = [] := by rw [r.visible_eq, hu0]; rfl
  have e : memtrace_emit_byte s addr value cycles
      = { s with mt_buf := some (mt_copy_in s.mt_mask buf s.mt_head
                    (ptr (byte_record addr value cycles)) 13),
                 mt_head := (s.mt_head + 13) % 4294967296 } := by
    rw [emit_byte_eq s addr value cycles hen, mt_try_write_accept s buf _ 13 r.hbuf hfree]
  obtain ⟨hr, hv⟩ := try_write_accept_ring r (ptr (byte_record addr value cycles)) 13 hfree
  rw [← e] at hr hv
  have hrec : byte_record addr value cycles = hdr_bytes 1 0 1 addr cycles ++ [value] := by
    unfold byte_record MT_EVT_BYTE
    rw [Nat.mod_eq_of_lt hvalue]
  have hv' : visible (memtrace_emit_byte s addr value cycles)
      = hdr_bytes 1 0 1 addr cycles ++ [value] := by
    rw [hv, hvis0, List.nil_append, ← hrec]
    exact map_ptr_range (byte_record addr value cycles)
  obtain ⟨h1, h2, _, _, _⟩ := drain_spec hr max_bytes
  have hused : mt_used_relaxed (memtrace_emit_byte s addr value cycles).mt_head
      (memtrace_emit_byte s addr value cycles).mt_tail = 13 := by
    rw [e]
    show mt_used_relaxed ((s.mt_head + 13) % 4294967296) s.mt_tail = 13
    rw [hempty]; unfold mt_used_relaxed; omega
  have hdst : (memtrace_drain (memtrace_emit_byte s addr value cycles) max_bytes).dst
      = hdr_bytes 1 0 1 addr cycles ++ [value] := by
    rw [h2, hv', List.take_of_length_le]
    simp only [List.length_append, hdr_bytes_length, List.length_singleton]
    omega
  refine ⟨?_, hdst, ?_, ?_⟩
  · rw [h1, hused]; omega
  · rw [hdst, parse_hdr_bytes]
    simp only [Hdr.mk.injEq]
    refine ⟨by norm_num, by norm_num, by norm_num, by omega, by omega⟩
  · unfold parse_payload
    rw [hdst, parse_hdr_bytes, drop_hdr_bytes]
    rfl

/-- The scenario `emitByte(0x1234, 0xAB, 100)`, then `drain`, then parse. -/
theorem emit_byte_round_trip_witness :
    Ring ring32 5 (fun _ => 0) ∧ ring32.mt_enabled ≠ 0 ∧ ring32.mt_tail = ring32.mt_head ∧
    13 < mt_capacity ring32 ∧ 0x1234 < 4294967296 ∧ 0xAB < 256 ∧ 100 < 4294967296 ∧
    13 ≤ 64 ∧
    parse_hdr (memtrace_drain (memtrace_emit_byte ring32 0x1234 0xAB 100) 64).dst
      = { type := 1, reserved := 0, length := 1, address := 0x1234, cycles := 100 } ∧
    parse_payload (memtrace_drain (memtrace_emit_byte ring32 0x1234 0xAB 100) 64).dst
      = [0xAB] :=
  ⟨ring32_ring, by decide, rfl, by decide, by decide, by decide, by decide, by decide,
   (emit_byte_round_trip ring32 5 _ ring32_ring (by decide) rfl (by decide) 0x1234 0xAB 100 64
      (by decide) (by decide) (by decide) (by decide)).2.2⟩

/-- C6: with `page x = (x >> 12) & 0xFFF` and `page low ≤ page high`, after
`subscribeRange(low, high, e)` an address is tracked exactly as `e` says when
its page lies in `[page low, page high]` and as before the call otherwise, which
is also what setting or clearing the pages of the range one by one gives.  The
proof goes through `subscribe_range_bit`, which covers the single-word case and
the head word, interior words and tail word of the three-part case. -/
theorem subscribe_range_tracks (s : State) (low high : Nat) (e : Bool) (a : Nat)
    (hle : page low ≤ page high) :
    memtrace_is_page_tracked (memtrace_subscribe_range s low high e) a
      = (if page low ≤ page a ∧ page a ≤ page high then e
         else memtrace_is_page_tracked s a) ∧
    memtrace_is_page_tracked (memtrace_subscribe_range s low high e) a
      = memtrace_is_page_tracked
          { s with memtrace_track_pages :=
              set_pages_each s.memtrace_track_pages (page low) (page high - page low + 1) e } a := by
  refine ⟨?_, subscribe_range_eq_each s low high e a hle⟩
  rw [is_page_tracked_eq, is_page_tracked_eq,
    subscribe_range_bit s low high e _ _ (Nat.mod_lt _ (by norm_num)) hle]
  have e1 : 64 * (page a / 64) + page a % 64 = page a := Nat.div_add_mod _ _
  rw [e1]

/-- Pages 63 to 129 span the end of word 0, all of word 1 and the start of
word 2; an address on page 64 becomes tracked. -/
theorem subscribe_range_tracks_witness :
    page 0x3F000 ≤ page 0x81000 ∧
    memtrace_is_page_tracked (memtrace_subscribe_range State.zero 0x3F000 0x81000 true) 0x40123
      = (if page 0x3F000 ≤ page 0x40123 ∧ page 0x40123 ≤ page 0x81000 then true
         else memtrace_is_page_tracked State.zero 0x40123) :=
  ⟨by decide, (subscribe_range_tracks State.zero 0x3F000 0x81000 true 0x40123 (by decide)).1⟩

/-- C7, failing inputs: a request of `2 ^ 31 + 1` bytes with an allocator that
returns a block makes `memtrace_init` succeed with `mt_mask = 0xFFFFFFFF`, a
capacity of 0, and a request of `2 ^ 32` bytes is cut to 32 bits and gives a
capacity of 2. -/
theorem init_capacity_overflow :
    (memtrace_init State.zero 2147483649 (fun _ => some (fun _ => 0))).mt_buf.isSome = true ∧
    (memtrace_init State.zero 2147483649 (fun _ => some (fun _ => 0))).mt_mask = 4294967295 ∧
    mt_capacity (memtrace_init State.zero 2147483649 (fun _ => some (fun _ => 0))) = 0 ∧
    (memtrace_init State.zero 4294967296 (fun _ => some (fun _ => 0))).mt_buf.isSome = true ∧
    mt_capacity (memtrace_init State.zero 4294967296 (fun _ => some (fun _ => 0))) = 2 := by
  refine ⟨by decide, by decide, by decide, by decide, by decide⟩

/-- C8: for every state, after `clear()` the drop count is 0, the head is
unchanged and the tail equals the head, and a drain returns 0, hands out
nothing and changes nothing.  In every sequence of emits and drains that
follows, as long as no emit has been accepted no drain hands out a byte; and on
a ring what later drains hand out is a prefix of what the emits accepted after
the clear wrote, so none of it was buffered before the clear. -/
theorem clear_discards_buffered (s : State) :
    memtrace_dropped (memtrace_clear s) = 0 ∧
    (memtrace_clear s).mt_head = s.mt_head ∧
    (memtrace_clear s).mt_tail = s.mt_head ∧
    (∀ max_bytes, memtrace_drain (memtrace_clear s) max_bytes
        = { ret := 0, dst := [], st := memtrace_clear s }) ∧
    (∀ ops, (run_ops (memtrace_clear s) ops).accepted = [] →
        (run_ops (memtrace_clear s) ops).drained = []) ∧
    (∀ k buf, Ring s k buf → ∀ ops,
        (run_ops (memtrace_clear s) ops).drained
          <+: (run_ops (memtrace_clear s) ops).accepted) := by
  refine ⟨rfl, rfl, rfl, fun m => drain_empty _ rfl m, ?_, ?_⟩
  · intro ops hacc
    exact (foldl_step_idle ops _ (fun _ => ⟨rfl, rfl⟩) hacc).1
  · intro k buf r ops
    exact ⟨_, run_ops_inv _ k buf (clear_ring r) rfl ops⟩

/-- The 4096-byte ring holds 1100 bytes; after `clear` the calls of
`example_calls` drain only what they wrote themselves. -/
theorem clear_discards_buffered_witness :
    Ring ring4096 12 (fun j => j % 251) ∧
    (run_ops (memtrace_clear ring4096) example_calls).drained
      <+: (run_ops (memtrace_clear ring4096) example_calls).accepted :=
  ⟨ring4096_ring, (clear_discards_buffered ring4096).2.2.2.2.2 12 _ ring4096_ring example_calls⟩

/-- C9, failing input: never initialised, tracing switched on, then a run of one
byte.  `mt_buf` is `NULL` and the drop count was 0; `emitByte` and `emitErase`
leave the state as it is, `emitRun` makes `droppedCount()` return 1. -/
theorem emit_run_unallocated_drop :
    (memtrace_enable State.zero true).mt_buf.isNone = true ∧
    memtrace_dropped (memtrace_enable State.zero true) = 0 ∧
    memtrace_dropped (memtrace_emit_byte (memtrace_enable State.zero true) 0 0 0) = 0 ∧
    memtrace_dropped (memtrace_emit_erase (memtrace_enable State.zero true) 0 0 0) = 0 ∧
    memtrace_dropped (memtrace_emit_run (memtrace_enable State.zero true) 0 (fun _ => 0) 1 0)
      = 1 := by
  refine ⟨by decide, by decide, by decide, by decide, by decide⟩

/-- C10: with tracing disabled `emitByte`, `emitRun` and `emitErase` return the
state they were given, for every argument; `emitRun` with `len = 0` does so
whatever the enabled flag is. -/
theorem emit_disabled_is_noop (s : State) :
    (s.mt_enabled = 0 →
      (∀ addr value cycles, memtrace_emit_byte s addr value cycles = s) ∧
      (∀ addr src len cycles, memtrace_emit_run s addr src len cycles = s) ∧
      (∀ addr len cycles, memtrace_emit_erase s addr len cycles = s)) ∧
    (∀ addr src cycles, memtrace_emit_run s addr src 0 cycles = s) := by
  refine ⟨fun hdis => ⟨?_, ?_, ?_⟩, ?_⟩
  · intro a v c; unfold memtrace_emit_byte; rw [if_pos hdis]
  · intro a src l c; unfold memtrace_emit_run; rw [if_pos (Or.inl hdis)]
  · intro a l c; unfold memtrace_emit_erase; rw [if_pos hdis]
  · intro a src c; unfold memtrace_emit_run; rw [if_pos (Or.inr rfl)]

/-- A disabled ring ignores a byte write, a run and an erase. -/
theorem emit_disabled_is_noop_witness :
    ring32_off.mt_enabled = 0 ∧
    memtrace_emit_byte ring32_off 0x1234 0xAB 100 = ring32_off ∧
    memtrace_emit_run ring32_off 0xD00000 (fun j => j % 256) 3000 77 = ring32_off ∧
    memtrace_emit_erase ring32_off 0x20000 4096 100 = ring32_off :=
  ⟨rfl, ((emit_disabled_is_noop ring32_off).1 rfl).1 0x1234 0xAB 100,
   ((emit_disabled_is_noop ring32_off).1 rfl).2.1 0xD00000 (fun j => j % 256) 3000 77,
   ((emit_disabled_is_noop ring32_off).1 rfl).2.2 0x20000 4096 100⟩

/-- C11: after `subscribeAll(e)` every address is tracked exactly as `e` says,
whatever the bitmap held before: `subscribeAll(true)` tracks every address, in
particular all of `[0, 2 ^ 24)`, and `subscribeAll(false)` tracks none. -/
theorem subscribe_all_tracks (s : State) (e : Bool) (a : Nat) :
    memtrace_is_page_tracked (memtrace_subscribe_all s e) a = e := by
  rw [is_page_tracked_eq]
  have hp := page_lt a
  have hw : page a / 64 < 64 := by omega
  have hb : page a % 64 < 64 := Nat.mod_lt _ (by norm_num)
  show (if page a / 64 < 64 then (if e then 18446744073709551615 else 0)
    else s.memtrace_track_pages (page a / 64)).testBit (page a % 64) = e
  rw [if_pos hw]
  exact fill_testBit e _ hb

/-- `memtrace_emit_erase` on a ring with more than 12 bytes free. -/
theorem emit_erase_accept_ring {s : State} {k : Nat} {buf : Mem} (r : Ring s k buf)
    (hen : s.mt_enabled ≠ 0) (addr len cycles : Nat) (hfree : 12 < mt_free s) :
    memtrace_emit_erase s addr len cycles
      = { s with mt_buf := some (mt_copy_in s.mt_mask buf s.mt_head
                    (ptr (erase_record addr len cycles)) 12),
                 mt_head := (s.mt_head + 12) % 4294967296 } ∧
    visible (memtrace_emit_erase s addr len cycles)
      = visible s ++ erase_record addr len cycles := by
  have e : memtrace_emit_erase s addr len cycles
      = { s with mt_buf := some (mt_copy_in s.mt_mask buf s.mt_head
                    (ptr (erase_record addr len cycles)) 12),
                 mt_head := (s.mt_head + 12) % 4294967296 } := by
    rw [emit_erase_eq s addr len cycles hen, mt_try_write_accept s buf _ 12 r.hbuf hfree]
  obtain ⟨_, hv⟩ := try_write_accept_ring r (ptr (erase_record addr len cycles)) 12 hfree
  refine ⟨e, ?_⟩
  rw [e, hv]
  exact congrArg _ (map_ptr_range (erase_record addr len cycles))

/-- C12: on an enabled ring with more than 12 bytes free,
`emitErase(addr, len, cycles)` appends exactly one record of 12 bytes, a header
that reads back as type 3, reserved 0, length `len mod 65536`, the address and
the cycle count, with no payload after it; the head advances by 12 (as a
`uint32_t`), tail and drop count are unchanged. -/
theorem emit_erase_appends_record (s : State) (k : Nat) (buf : Mem) (r : Ring s k buf)
    (hen : s.mt_enabled ≠ 0) (addr len cycles : Nat)
    (haddr : addr < 4294967296) (hcyc : cycles < 4294967296) (hfree : 12 < mt_free s) :
    (∃ buf', memtrace_emit_erase s addr len cycles
        = { s with mt_buf := some buf', mt_head := (s.mt_head + 12) % 4294967296 }) ∧
    (memtrace_emit_erase s addr len cycles).mt_head = (s.mt_head + 12) % 4294967296 ∧
    (memtrace_emit_erase s addr len cycles).mt_tail = s.mt_tail ∧
    (memtrace_emit_erase s addr len cycles).mt_dropped = s.mt_dropped ∧
    visible (memtrace_emit_erase s addr len cycles)
      = visible s ++ erase_record addr len cycles ∧
    (erase_record addr len cycles).length = 12 ∧
    parse_hdr (erase_record addr len cycles)
      = { type := 3, reserved := 0, length := len % 65536, address := addr,
          cycles := cycles } ∧
    (∀ max_bytes, (memtrace_drain (memtrace_emit_erase s addr len cycles) max_bytes).dst
      = (visible s ++ erase_record addr len cycles).take max_bytes) := by
  obtain ⟨e, hv⟩ := emit_erase_accept_ring r hen addr len cycles hfree
  obtain ⟨hr, _⟩ := try_write_accept_ring r (ptr (erase_record addr len cycles)) 12 hfree
  rw [← e] at hr
  refine ⟨⟨_, e⟩, by rw [e], by rw [e], by rw [e], hv, rfl, ?_, ?_⟩
  · have h := parse_hdr_bytes MT_EVT_ERASE 0 (len % 65536) addr cycles []
    rw [List.append_nil] at h
    unfold erase_record
    rw [h]
    simp only [MT_EVT_ERASE, Hdr.mk.injEq]
    refine ⟨by norm_num, by norm_num, by omega, by omega, by omega⟩
  · intro m
    rw [(drain_spec hr m).2.1, hv]

/-- An erase of 70000 bytes on the empty 32-byte ring: length field
`70000 mod 65536 = 4464`, head from 0 to 12. -/
theorem emit_erase_appends_record_witness :
    Ring ring32 5 (fun _ => 0) ∧ ring32.mt_enabled ≠ 0 ∧ 0x20000 < 4294967296 ∧
    9 < 4294967296 ∧ 12 < mt_free ring32 ∧
    (memtrace_emit_erase ring32 0x20000 70000 9).mt_head = (ring32.mt_head + 12) % 4294967296 ∧
    parse_hdr (erase_record 0x20000 70000 9)
      = { type := 3, reserved := 0, length := 70000 % 65536, address := 0x20000,
          cycles := 9 } :=
  ⟨ring32_ring, by decide, by decide, by decide, by decide,
   (emit_erase_appends_record ring32 5 _ ring32_ring (by decide) 0x20000 70000 9
      (by decide) (by decide) (by decide)).2.1,
   (emit_erase_appends_record ring32 5 _ ring32_ring (by decide) 0x20000 70000 9
      (by decide) (by decide) (by decide)).2.2.2.2.2.2.1⟩

theorem ringList_eq_mod (k : Nat) (hk : k ≤ 31) (buf : Mem) (t n : Nat) :
    ringList (2 ^ k - 1) buf t n = (List.range n).map (fun j => buf ((t + j) % 2 ^ k)) := by
  unfold ringList
  apply List.map_congr_left
  intro j _
  unfold ringByte
  rw [Nat.and_pow_two_sub_one_eq_mod, mod_u32_mod (pow_dvd_u32 hk)]

/-- C13: on a ring (`head - tail ≤ capacity`), `drain(dst, max_bytes)` returns
`min max_bytes (head - tail)`, stores to `dst` that many bytes, byte `j` being
the buffered byte at index `(tail + j) mod capacity` of the backing store,
advances the tail by the returned count (as a `uint32_t`) and leaves everything
else, head, drop count and backing store included, as it was.  With nothing
buffered, or with no storage allocated, it returns 0 and changes nothing. -/
theorem drain_returns_buffered (s : State) (max_bytes : Nat) :
    (∀ k buf, Ring s k buf →
      (memtrace_drain s max_bytes).ret = min max_bytes (mt_used_relaxed s.mt_head s.mt_tail) ∧
      (memtrace_drain s max_bytes).dst
        = (List.range (min max_bytes (mt_used_relaxed s.mt_head s.mt_tail))).map
            (fun j => buf ((s.mt_tail + j) % 2 ^ k)) ∧
      (memtrace_drain s max_bytes).st
        = { s with mt_tail :=
              (s.mt_tail + min max_bytes (mt_used_relaxed s.mt_head s.mt_tail))
                % 4294967296 }) ∧
    (s.mt_tail = s.mt_head →
      memtrace_drain s max_bytes = { ret := 0, dst := [], st := s }) ∧
    (s.mt_buf = none →
      memtrace_drain s max_bytes = { ret := 0, dst := [], st := s }) := by
  refine ⟨?_, fun h => drain_empty s h max_bytes, ?_⟩
  · intro k buf r
    obtain ⟨h1, h2, h3, _, _⟩ := drain_spec r max_bytes
    refine ⟨h1, ?_, h3⟩
    rw [h2, r.visible_eq, ringList_take, ringList_eq_mod k r.hk]
  · intro h
    exact (unallocated_try_write_drain_inert s h).2.2 max_bytes

theorem ring32_wrapped_ring : Ring ring32_wrapped 5 (fun j => 100 + j) :=
  ⟨rfl, by decide, by decide, by decide, by decide, by decide, by decide⟩

/-- A drain of at most 10 bytes from array index 24 on wraps past the end of
the 32-byte array. -/
theorem drain_returns_buffered_witness :
    Ring ring32_wrapped 5 (fun j => 100 + j) ∧
    (memtrace_drain ring32_wrapped 10).ret = 10 ∧
    (memtrace_drain ring32_wrapped 10).dst
      = [124, 125, 126, 127, 128, 129, 130, 131, 100, 101] ∧
    (memtrace_drain ring32_wrapped 10).st.mt_tail = 34 ∧
    State.zero.mt_buf = none ∧
    memtrace_drain State.zero 10 = { ret := 0, dst := [], st := State.zero } :=
  ⟨ring32_wrapped_ring,
   ((drain_returns_buffered ring32_wrapped 10).1 5 _ ring32_wrapped_ring).1,
   ((drain_returns_buffered ring32_wrapped 10).1 5 _ ring32_wrapped_ring).2.1,
   by decide, rfl, (drain_returns_buffered State.zero 10).2.2 rfl⟩

theorem saturation_start_eq (alloc : Nat → Option Mem) (buf : Mem)
    (halloc : alloc 1048576 = some buf) :
    saturation_start alloc
      = { mt_buf := some buf, mt_mask := 1048575, mt_head := 0, mt_tail := 0,
          mt_dropped := 0, mt_enabled := 1, memtrace_track_pages := fun _ => 0 } := by
  have hr : roundup_pow2_u32 ((if (0 : Nat) ≠ 0 then 0 else 1048576) % 4294967296)
      = 1048576 := by decide
  unfold saturation_start memtrace_enable memtrace_init
  simp only [State.zero, hr, halloc]
  rfl

theorem sat_head_le (n : Nat) : 13 * min n 80659 ≤ 1048567 := by omega

theorem sat_head_accept (n : Nat) (hlt : n < 80659) :
    (13 * min n 80659 + 13) % 4294967296 = 13 * min (n + 1) 80659 ∧
    13 * min n 80659 + 13 < 1048576 - 13 + 13 ∧
    n + 1 - min (n + 1) 80659 = n - min n 80659 := by omega

theorem sat_head_reject (n : Nat) (hge : 80659 ≤ n) :
    13 * min n 80659 = 13 * min (n + 1) 80659 ∧ 1048576 - 13 * min n 80659 ≤ 13 ∧
    n + 1 - min (n + 1) 80659 = (n - min n 80659) + 1 := by omega

/-- Free space of a ring of 1,048,576 bytes with tail 0 and head at most the
capacity. -/
theorem sat_free (b : Mem) (h d : Nat) (hx : h ≤ 1048576) :
    mt_free { mt_buf := some b, mt_mask := 1048575, mt_head := h, mt_tail := 0,
              mt_dropped := d, mt_enabled := 1, memtrace_track_pages := fun _ => 0 }
      = 1048576 - h := by
  have hu : mt_used_relaxed h 0 = h := by
    unfold mt_used_relaxed; omega
  have hc : (1048575 + 1) % 4294967296 = 1048576 := by norm_num
  have hf : (1048576 + 4294967296 - h) % 4294967296 = 1048576 - h := by
    have e : 1048576 + 4294967296 - h = (1048576 - h) + 4294967296 := by omega
    rw [e, Nat.add_mod_right]
    exact Nat.mod_eq_of_lt (by omega)
  simp only [mt_free, mt_capacity, hu, hc, hf]

/-- The state after `n` calls in the saturation scenario: the first 80659 calls
are accepted, every later one is rejected and counted. -/
theorem emit_byte_times_eq (alloc : Nat → Option Mem) (buf : Mem)
    (halloc : alloc 1048576 = some buf) (n : Nat) :
    ∃ b h d, emit_byte_times (saturation_start alloc) n
      = { mt_buf := some b, mt_mask := 1048575, mt_head := h, mt_tail := 0,
          mt_dropped := d, mt_enabled := 1, memtrace_track_pages := fun _ => 0 } ∧
      h = 13 * min n 80659 ∧ d = (n - min n 80659) % 18446744073709551616 := by
  induction n with
  | zero => exact ⟨buf, 0, 0, saturation_start_eq alloc buf halloc, by omega, by omega⟩
  | succ n ih =>
    obtain ⟨b, h, d, hb, hh, hd⟩ := ih
    show ∃ b h d, memtrace_emit_byte (emit_byte_times (saturation_start alloc) n) 0 0 0 = _ ∧ _
    rw [hb, emit_byte_eq _ 0 0 0 Nat.one_ne_zero]
    have hle := sat_head_le n
    rw [← hh] at hle
    have hfr := sat_free b h d (Nat.le_trans hle (by norm_num))
    rcases Nat.lt_or_ge n 80659 with hlt | hge
    · obtain ⟨a1, a2, a3⟩ := sat_head_accept n hlt
      rw [← hh] at a1 a2
      have hfree : 13 < mt_free
          { mt_buf := some b, mt_mask := 1048575, mt_head := h, mt_tail := 0,
            mt_dropped := d, mt_enabled := 1, memtrace_track_pages := fun _ => 0 } := by
        rw [hfr]
        clear hb hd hh a1 a3 hfr
        omega
      rw [mt_try_write_accept _ b _ 13 rfl hfree]
      refine ⟨mt_copy_in 1048575 b h (ptr (byte_record 0 0 0)) 13, (h + 13) % 4294967296, d,
        rfl, a1, ?_⟩
      rw [a3]
      exact hd
    · obtain ⟨a1, a2, a3⟩ := sat_head_reject n hge
      rw [← hh] at a1 a2
      have hfree : mt_free
          { mt_buf := some b, mt_mask := 1048575, mt_head := h, mt_tail := 0,
            mt_dropped := d, mt_enabled := 1, memtrace_track_pages := fun _ => 0 } ≤ 13 := by
        rw [hfr]
        exact a2
      rw [mt_try_write_reject _ b _ 13 rfl hfree]
      refine ⟨b, h, (d + 1) % 18446744073709551616, rfl, a1, ?_⟩
      rw [a3, hd, Nat.mod_add_mod]

/-- C14: the saturation scenario.  After `init(0)` (capacity 1,048,576) and
enabling, `n` calls `emitByte(0, 0, 0)` with no drain leave
`head = 13 * min n 80659`, tail 0 and `droppedCount = n - min n 80659` (as a
`uint64_t`).  A call is accepted while the bytes buffered before it,
`13 * j`, are below `capacity - 13`, which holds for the calls `j < 80659`: up
to there the drop count is 0 and the head is `13 * n`.  From call 80659 on the
buffered bytes, 1,048,567, exceed `capacity - 13`, every call is rejected, each
adds 1 to the drop count, and the head stays at 1,048,567. -/
theorem saturation_scenario (alloc : Nat → Option Mem) (buf : Mem)
    (halloc : alloc 1048576 = some buf) (n : Nat) :
    mt_capacity (emit_byte_times (saturation_start alloc) n) = 1048576 ∧
    (emit_byte_times (saturation_start alloc) n).mt_head = 13 * min n 80659 ∧
    (emit_byte_times (saturation_start alloc) n).mt_tail = 0 ∧
    memtrace_dropped (emit_byte_times (saturation_start alloc) n)
      = (n - min n 80659) % 18446744073709551616 ∧
    (n - 80659 < 18446744073709551616 →
      memtrace_dropped (emit_byte_times (saturation_start alloc) n) = n - min n 80659) ∧
    (13 * 80658 < 1048576 - 13 ∧ 1048576 - 13 ≤ 13 * 80659) ∧
    (n ≤ 80659 →
      memtrace_dropped (emit_byte_times (saturation_start alloc) n) = 0 ∧
      (emit_byte_times (saturation_start alloc) n).mt_head = 13 * n) ∧
    (80659 ≤ n →
      (emit_byte_times (saturation_start alloc) n).mt_head = 1048567 ∧
      (emit_byte_times (saturation_start alloc) (n + 1)).mt_head = 1048567 ∧
      memtrace_dropped (emit_byte_times (saturation_start alloc) (n + 1))
        = (memtrace_dropped (emit_byte_times (saturation_start alloc) n) + 1)
            % 18446744073709551616) := by
  obtain ⟨b, h, d, hb, hh, hd⟩ := emit_byte_times_eq alloc buf halloc n
  obtain ⟨b', h', d', hb', hh', hd'⟩ := emit_byte_times_eq alloc buf halloc (n + 1)
  rw [hb, hb']
  simp only [mt_capacity, memtrace_dropped]
  refine ⟨by norm_num, hh, trivial, hd, ?_, by omega, ?_, ?_⟩
  · intro hn
    rw [hd]
    exact Nat.mod_eq_of_lt (by omega)
  · intro hn; constructor <;> omega
  · intro hn
    have e : n + 1 - min (n + 1) 80659 = (n - min n 80659) + 1 := by omega
    refine ⟨by omega, by omega, ?_⟩
    rw [hd', e, hd, Nat.mod_add_mod]

/-- With an allocator that returns a block: 80659 calls fill the ring to
1,048,567 bytes without a drop, and ten more calls are ten drops. -/
theorem saturation_scenario_witness :
    alloc_ok 1048576 = some (fun _ => 0) ∧
    memtrace_dropped (emit_byte_times (saturation_start alloc_ok) 80659) = 0 ∧
    (emit_byte_times (saturation_start alloc_ok) 80659).mt_head = 13 * 80659 ∧
    memtrace_dropped (emit_byte_times (saturation_start alloc_ok) 80669) = 10 ∧
    (emit_byte_times (saturation_start alloc_ok) 80669).mt_head = 1048567 :=
  ⟨rfl,
   ((saturation_scenario alloc_ok _ rfl 80659).2.2.2.2.2.2.1 (by decide)).1,
   ((saturation_scenario alloc_ok _ rfl 80659).2.2.2.2.2.2.1 (by decide)).2,
   (saturation_scenario alloc_ok _ rfl 80669).2.2.2.2.1 (by decide),
   ((saturation_scenario alloc_ok _ rfl 80669).2.2.2.2.2.2.2 (by decide)).1⟩

/-- C15: `init` is idempotent while storage exists.  On a state whose storage
is allocated `init(capacity_bytes)` returns the state unchanged, whatever the
request and whatever `malloc` would return; hence after an `init(a)` that
obtained storage, `init(b)` changes nothing. -/
theorem init_idempotent (s : State) (a b : Nat) (alloc alloc' : Nat → Option Mem) :
    (s.mt_buf.isSome = true → memtrace_init s b alloc' = s) ∧
    ((memtrace_init s a alloc).mt_buf.isSome = true →
      memtrace_init (memtrace_init s a alloc) b alloc' = memtrace_init s a alloc) := by
  have h : ∀ t : State, t.mt_buf.isSome = true → memtrace_init t b alloc' = t := by
    intro t ht
    unfold memtrace_init
    cases hb : t.mt_buf with
    | none => rw [hb] at ht; exact absurd ht (by decide)
    | some m => rfl
  exact ⟨h s, h _⟩

/-- The 32-byte ring is kept by `init(4096)`, and `init(64)` followed by
`init(4096)` is `init(64)`. -/
theorem init_idempotent_witness :
    ring32.mt_buf.isSome = true ∧ memtrace_init ring32 4096 alloc_ok = ring32 ∧
    (memtrace_init State.zero 64 alloc_ok).mt_buf.isSome = true ∧
    memtrace_init (memtrace_init State.zero 64 alloc_ok) 4096 alloc_ok
      = memtrace_init State.zero 64 alloc_ok ∧
    mt_capacity (memtrace_init (memtrace_init State.zero 64 alloc_ok) 4096 alloc_ok) = 64 :=
  ⟨by decide, (init_idempotent ring32 0 4096 alloc_ok alloc_ok).1 (by decide), by decide,
   (init_idempotent State.zero 64 4096 alloc_ok alloc_ok).2 (by decide), by decide⟩

/-- The capacity after a successful `memtrace_init` is what `roundup_pow2_u32`
returned. -/
theorem init_capacity_eq_roundup (s : State) (hs : s.mt_buf = none) (capacity_bytes : Nat)
    (alloc : Nat → Option Mem)
    (hok : (memtrace_init s capacity_bytes alloc).mt_buf ≠ none) :
    mt_capacity (memtrace_init s capacity_bytes alloc)
      = roundup_pow2_u32
          ((if capacity_bytes ≠ 0 then capacity_bytes else 1048576) % 4294967296) := by
  obtain ⟨v, hv⟩ : ∃ v, v = (if capacity_bytes ≠ 0 then capacity_bytes else 1048576)
      % 4294967296 := ⟨_, rfl⟩
  have hlt : roundup_pow2_u32 v < 4294967296 := by
    unfold roundup_pow2_u32
    split
    · norm_num
    · exact Nat.mod_lt _ (by norm_num)
  unfold memtrace_init at hok ⊢
  rw [hs] at hok ⊢
  simp only [← hv] at hok ⊢
  cases ha : alloc (roundup_pow2_u32 v) with
  | none => rw [ha] at hok; exact absurd rfl hok
  | some m =>
    show (((roundup_pow2_u32 v) + 4294967296 - 1) % 4294967296 + 1) % 4294967296
      = roundup_pow2_u32 v
    omega

/-- A successful `memtrace_init` from an unallocated state does not depend on
what the other fields held. -/
theorem init_from_unallocated (s : State) (hs : s.mt_buf = none) (capacity_bytes : Nat)
    (alloc : Nat → Option Mem)
    (hok : (memtrace_init s capacity_bytes alloc).mt_buf ≠ none) :
    memtrace_init s capacity_bytes alloc = memtrace_init State.zero capacity_bytes alloc := by
  unfold memtrace_init at hok ⊢
  rw [hs] at hok ⊢
  simp only [State.zero] at hok ⊢
  split
  · rename_i ha; rw [ha] at hok; exact absurd rfl hok
  · rfl

/-- C16, as the code has it: `memtrace_free` resets the storage pointer, the
mask, head, tail, drop count and enabled flag to their initial values and
leaves the subscription bitmap as it is.  A following successful `init(c)`
clears the bitmap and gives the same state, and so the same capacity, as
`init(c)` on the never-initialised state, independent of the capacity before.
For a request `c ≤ 2 ^ 31` that capacity is the request rounded up: 1 MiB for
`c = 0`, otherwise the least power of two that is at least 2 and at least
`c`. -/
theorem free_resets_all_but_bitmap (s : State) (c : Nat) (alloc : Nat → Option Mem) :
    memtrace_free s
      = { State.zero with memtrace_track_pages := s.memtrace_track_pages } ∧
    (memtrace_free s).mt_buf = none ∧ (memtrace_free s).mt_mask = 0 ∧
    (memtrace_free s).mt_head = 0 ∧ (memtrace_free s).mt_tail = 0 ∧
    memtrace_dropped (memtrace_free s) = 0 ∧ memtrace_is_enabled (memtrace_free s) = false ∧
    (memtrace_free s).memtrace_track_pages = s.memtrace_track_pages ∧
    ((memtrace_init (memtrace_free s) c alloc).mt_buf.isSome = true →
      memtrace_init (memtrace_free s) c alloc = memtrace_init State.zero c alloc ∧
      mt_capacity (memtrace_init (memtrace_free s) c alloc)
        = mt_capacity (memtrace_init State.zero c alloc) ∧
      (c ≤ 2147483648 →
        ∃ k, 1 ≤ k ∧ k ≤ 31 ∧ mt_capacity (memtrace_init (memtrace_free s) c alloc) = 2 ^ k ∧
          (c = 0 → 2 ^ k = 1048576) ∧
          (c ≠ 0 → c ≤ 2 ^ k ∧ (2 < c → 2 ^ (k - 1) < c) ∧ (c ≤ 2 → k = 1)))) := by
  refine ⟨rfl, rfl, rfl, rfl, rfl, rfl, rfl, rfl, ?_⟩
  intro hok
  have hok' : (memtrace_init (memtrace_free s) c alloc).mt_buf ≠ none := by
    intro h; rw [h] at hok; exact absurd hok (by decide)
  have e := init_from_unallocated _ rfl c alloc hok'
  exact ⟨e, by rw [e], fun hreq => init_capacity_in_range _ rfl c alloc hreq hok'⟩

/-- After `init(0)`, `subscribeAll(true)` and `shutdown()`, a later `init(100)`
gives the state `init(100)` gives when nothing came before, with capacity 128,
the least power of two that is at least 100. -/
theorem free_resets_all_but_bitmap_witness :
    (memtrace_init (memtrace_free (memtrace_subscribe_all
        (memtrace_init State.zero 0 alloc_ok) true)) 100 alloc_ok).mt_buf.isSome = true ∧
    100 ≤ 2147483648 ∧
    memtrace_init (memtrace_free (memtrace_subscribe_all
        (memtrace_init State.zero 0 alloc_ok) true)) 100 alloc_ok
      = memtrace_init State.zero 100 alloc_ok ∧
    (∃ k, 1 ≤ k ∧ k ≤ 31 ∧
      mt_capacity (memtrace_init (memtrace_free (memtrace_subscribe_all
        (memtrace_init State.zero 0 alloc_ok) true)) 100 alloc_ok) = 2 ^ k ∧
      (100 = 0 → 2 ^ k = 1048576) ∧
      (100 ≠ 0 → 100 ≤ 2 ^ k ∧ (2 < 100 → 2 ^ (k - 1) < 100) ∧ (100 ≤ 2 → k = 1))) ∧
    mt_capacity (memtrace_init (memtrace_free (memtrace_subscribe_all
        (memtrace_init State.zero 0 alloc_ok) true)) 100 alloc_ok) = 128 :=
  ⟨by decide, by decide,
   ((free_resets_all_but_bitmap (memtrace_subscribe_all
      (memtrace_init State.zero 0 alloc_ok) true) 100 alloc_ok).2.2.2.2.2.2.2.2 (by decide)).1,
   ((free_resets_all_but_bitmap (memtrace_subscribe_all
      (memtrace_init State.zero 0 alloc_ok) true) 100 alloc_ok).2.2.2.2.2.2.2.2
        (by decide)).2.2 (by decide),
   by decide⟩

/-- C16 as stated fails: after `init(0)`, `subscribeAll(true)` and `shutdown()`
the bitmap is not all clear, address 0 is still tracked, and the state is not
the never-initialised state. -/
theorem free_keeps_bitmap :
    memtrace_is_page_tracked
      (memtrace_free (memtrace_subscribe_all (memtrace_init State.zero 0 alloc_ok) true)) 0
      = true ∧
    memtrace_is_page_tracked State.zero 0 = false ∧
    memtrace_free (memtrace_subscribe_all (memtrace_init State.zero 0 alloc_ok) true)
      ≠ State.zero := by
  refine ⟨by decide, by decide, ?_⟩
  intro h
  have h2 := congrArg (fun t => memtrace_is_page_tracked t 0) h
  revert h2
  decide

theorem op_next_ring {s : State} {k : Nat} {buf : Mem} (r : Ring s k buf) (op : Op) :
    ∃ b, Ring (op.next s) k b := by
  cases op with
  | emitByte addr value cycles =>
    rcases emit_byte_ring r addr value cycles with ⟨_, hr, _⟩ | ⟨_, hr, _⟩ <;> exact hr
  | emitRun addr src len cycles =>
    rcases emit_run_ring_cases r addr src len cycles with ⟨_, hr, _⟩ | ⟨_, hr, _⟩ <;> exact hr
  | emitErase addr len cycles =>
    rcases emit_erase_ring r addr len cycles with ⟨_, hr, _⟩ | ⟨_, hr, _⟩ <;> exact hr
  | drain max_bytes => exact ⟨buf, (drain_spec r max_bytes).2.2.2.1⟩

theorem subscribe_range_fields (s : State) (low high : Nat) (e : Bool) :
    (memtrace_subscribe_range s low high e).mt_buf = s.mt_buf ∧
    (memtrace_subscribe_range s low high e).mt_mask = s.mt_mask ∧
    (memtrace_subscribe_range s low high e).mt_head = s.mt_head ∧
    (memtrace_subscribe_range s low high e).mt_tail = s.mt_tail := by
  unfold memtrace_subscribe_range
  simp only []
  split <;> split <;> exact ⟨rfl, rfl, rfl, rfl⟩

theorem call_next_ring {s : State} {k : Nat} {buf : Mem} (r : Ring s k buf) (c : Call) :
    ∃ b, Ring (c.next s) k b := by
  cases c with
  | ring op => exact op_next_ring r op
  | clear => exact ⟨buf, clear_ring r⟩
  | enable on' => exact ⟨buf, ⟨r.hbuf, r.hk1, r.hk, r.hmask, r.hhead, r.htail, r.hused⟩⟩
  | subscribeAll e => exact ⟨buf, ⟨r.hbuf, r.hk1, r.hk, r.hmask, r.hhead, r.htail, r.hused⟩⟩
  | subscribeRange low high e =>
    obtain ⟨h1, h2, h3, h4⟩ := subscribe_range_fields s low high e
    refine ⟨buf, ⟨?_, r.hk1, r.hk, ?_, ?_, ?_, ?_⟩⟩
    · show (memtrace_subscribe_range s low high e).mt_buf = _
      rw [h1]; exact r.hbuf
    · show (memtrace_subscribe_range s low high e).mt_mask = _
      rw [h2]; exact r.hmask
    · show (memtrace_subscribe_range s low high e).mt_head < _
      rw [h3]; exact r.hhead
    · show (memtrace_subscribe_range s low high e).mt_tail < _
      rw [h4]; exact r.htail
    · show mt_used_relaxed (memtrace_subscribe_range s low high e).mt_head
        (memtrace_subscribe_range s low high e).mt_tail ≤ _
      rw [h3, h4]; exact r.hused

theorem run_calls_ring (k : Nat) (calls : List Call) :
    ∀ s : State, (∃ buf, Ring s k buf) → ∃ b, Ring (run_calls s calls) k b := by
  induction calls with
  | nil => intro s h; exact h
  | cons c calls ih =>
    intro s h
    obtain ⟨buf, r⟩ := h
    exact ih _ (call_next_ring r c)

/-- The state a successful `memtrace_init` returns when the capacity it set is
`2 ^ k` with `1 ≤ k ≤ 31` is a ring with both cursors at 0. -/
theorem init_ring (s0 : State) (hs0 : s0.mt_buf = none) (c : Nat) (alloc : Nat → Option Mem)
    (hok : (memtrace_init s0 c alloc).mt_buf.isSome = true)
    (k : Nat) (hk1 : 1 ≤ k) (hk : k ≤ 31)
    (hcap : mt_capacity (memtrace_init s0 c alloc) = 2 ^ k) :
    ∃ buf, Ring (memtrace_init s0 c alloc) k buf := by
  have h2 := two_le_pow hk1
  have h31 := pow_le_u31 hk
  unfold memtrace_init at hok hcap ⊢
  rw [hs0] at hok hcap ⊢
  simp only [] at hok hcap ⊢
  generalize roundup_pow2_u32 ((if c ≠ 0 then c else 1048576) % 4294967296) = cap at *
  cases ha : alloc cap with
  | none => rw [ha] at hok; simp at hok
  | some m =>
    rw [ha] at hcap
    simp only [mt_capacity] at hcap
    refine ⟨m, ⟨rfl, hk1, hk, ?_, by norm_num, by norm_num, ?_⟩⟩
    · show (cap + 4294967296 - 1) % 4294967296 = 2 ^ k - 1
      generalize 2 ^ k = C at *
      omega
    · show mt_used_relaxed 0 0 ≤ 2 ^ k
      unfold mt_used_relaxed
      omega

/-- C18: the ring invariant.  From the state a successful `init` returns with
capacity `2 ^ k`, `1 ≤ k ≤ 31`, every sequence of `emitByte`, `emitRun`,
`emitErase`, `drain`, `clear`, `enable`, `subscribeAll` and `subscribeRange`
calls leads to a state with the same capacity in which `head - tail`, taken
modulo `2 ^ 32`, is at most the capacity; it is the number of buffered bytes,
and `capacity - (head - tail)` is the free space the writers compute.  The
calls preserve this from every state that has it, so also once the cursors
have wrapped past `2 ^ 32`. -/
theorem ring_invariant (s0 : State) (hs0 : s0.mt_buf = none) (c : Nat)
    (alloc : Nat → Option Mem)
    (hok : (memtrace_init s0 c alloc).mt_buf.isSome = true)
    (k : Nat) (hk1 : 1 ≤ k) (hk : k ≤ 31)
    (hcap : mt_capacity (memtrace_init s0 c alloc) = 2 ^ k) (calls : List Call) :
    mt_capacity (run_calls (memtrace_init s0 c alloc) calls) = 2 ^ k ∧
    mt_used_relaxed (run_calls (memtrace_init s0 c alloc) calls).mt_head
        (run_calls (memtrace_init s0 c alloc) calls).mt_tail ≤ 2 ^ k ∧
    (visible (run_calls (memtrace_init s0 c alloc) calls)).length
      = mt_used_relaxed (run_calls (memtrace_init s0 c alloc) calls).mt_head
          (run_calls (memtrace_init s0 c alloc) calls).mt_tail ∧
    mt_free (run_calls (memtrace_init s0 c alloc) calls)
      = 2 ^ k - mt_used_relaxed (run_calls (memtrace_init s0 c alloc) calls).mt_head
          (run_calls (memtrace_init s0 c alloc) calls).mt_tail ∧
    ∀ s1 buf1, Ring s1 k buf1 → ∃ b, Ring (run_calls s1 calls) k b := by
  obtain ⟨b, r⟩ := run_calls_ring k calls _ (init_ring s0 hs0 c alloc hok k hk1 hk hcap)
  refine ⟨r.capacity, r.hused, ?_, r.free_eq, fun s1 buf1 r1 => run_calls_ring k calls s1 ⟨buf1, r1⟩⟩
  rw [r.visible_eq, ringList_length]

/-- After `init(32)` and the calls of `example_all_calls` the ring of 32 bytes
holds 13 bytes. -/
theorem ring_invariant_witness :
    State.zero.mt_buf = none ∧ (memtrace_init State.zero 32 alloc_ok).mt_buf.isSome = true ∧
    1 ≤ 5 ∧ 5 ≤ 31 ∧ mt_capacity (memtrace_init State.zero 32 alloc_ok) = 2 ^ 5 ∧
    mt_used_relaxed (run_calls (memtrace_init State.zero 32 alloc_ok) example_all_calls).mt_head
        (run_calls (memtrace_init State.zero 32 alloc_ok) example_all_calls).mt_tail ≤ 2 ^ 5 ∧
    mt_used_relaxed (run_calls (memtrace_init State.zero 32 alloc_ok) example_all_calls).mt_head
        (run_calls (memtrace_init State.zero 32 alloc_ok) example_all_calls).mt_tail = 13 :=
  ⟨rfl, by decide, by decide, by decide, by decide,
   (ring_invariant State.zero rfl 32 alloc_ok (by decide) 5 (by decide) (by decide) (by decide)
      example_all_calls).2.1,
   by decide⟩

/-- The length of the first `n` Run records of a run. -/
theorem run_records_length_upto (addr : Nat) (src : Mem) (len cycles : Nat) (n : Nat) :
    ((List.range n).flatMap (run_record addr src len cycles)).length
      = 12 * n + min len (1024 * n) := by
  induction n with
  | zero => simp
  | succ n ih =>
    rw [List.range_succ, List.flatMap_append, List.length_append, ih]
    simp only [List.flatMap_cons, List.flatMap_nil, List.append_nil]
    unfold run_record
    rw [List.length_append, hdr_bytes_length, List.length_map, List.length_range]
    unfold run_chunk_len
    omega

/-- The serialised run is `len + 12 * ceil(len / 1024)` bytes long. -/
theorem run_records_length (addr : Nat) (src : Mem) (len cycles : Nat) :
    (run_records addr src len cycles).length = len + 12 * run_chunks len := by
  unfold run_records
  rw [run_records_length_upto]
  unfold run_chunks
  omega

/-- The producer's view of a ring through a tail published earlier is a ring. -/
theorem stale_view_ring {s : State} {k : Nat} {buf : Mem} (r : Ring s k buf) (t' : Nat)
    (ht' : t' < 4294967296) (hle : mt_used_relaxed s.mt_head t' ≤ 2 ^ k) :
    Ring { s with mt_tail := t' } k buf :=
  ⟨r.hbuf, r.hk1, r.hk, r.hmask, r.hhead, ht', hle⟩

theorem stale_free_le {s : State} {k : Nat} {buf : Mem} (r : Ring s k buf) (t' : Nat)
    (ht' : t' < 4294967296)
    (hstale : mt_used_relaxed s.mt_tail t' ≤ mt_used_relaxed s.mt_head t')
    (hle : mt_used_relaxed s.mt_head t' ≤ 2 ^ k) :
    mt_free { s with mt_tail := t' } ≤ mt_free s := by
  have h31 := pow_le_u31 r.hk
  have hh := r.hhead
  have ht := r.htail
  rw [(stale_view_ring r t' ht' hle).free_eq, r.free_eq]
  show 2 ^ k - mt_used_relaxed s.mt_head t' ≤ 2 ^ k - mt_used_relaxed s.mt_head s.mt_tail
  unfold mt_used_relaxed at hstale hle ⊢
  omega

theorem stale_used_split {s : State} {k : Nat} {buf : Mem} (r : Ring s k buf) (t' : Nat)
    (ht' : t' < 4294967296)
    (hstale : mt_used_relaxed s.mt_tail t' ≤ mt_used_relaxed s.mt_head t')
    (hle : mt_used_relaxed s.mt_head t' ≤ 2 ^ k) :
    mt_used_relaxed s.mt_head t'
        = mt_used_relaxed s.mt_tail t' + mt_used_relaxed s.mt_head s.mt_tail ∧
      s.mt_tail = (t' + mt_used_relaxed s.mt_tail t') % 4294967296 := by
  have h31 := pow_le_u31 r.hk
  have hh := r.hhead
  have ht := r.htail
  unfold mt_used_relaxed at hstale hle ⊢
  omega

theorem stale_used_after (h t t' n C : Nat) (hh : h < 4294967296) (ht : t < 4294967296)
    (ht' : t' < 4294967296) (hC : C ≤ 2147483648)
    (hstale : mt_used_relaxed t t' ≤ mt_used_relaxed h t')
    (hle : mt_used_relaxed h t' ≤ C) (hn : n < C - mt_used_relaxed h t') :
    mt_used_relaxed ((h + n) % 4294967296) t' - mt_used_relaxed t t'
      = mt_used_relaxed ((h + n) % 4294967296) t := by
  unfold mt_used_relaxed at hstale hle hn ⊢
  omega

/-- The slots an accepted write fills hold no buffered byte. -/
theorem write_slots_free {s : State} {k : Nat} {buf : Mem} (r : Ring s k buf) (len : Nat)
    (hfree : len < mt_free s) (x : Nat) (hx : x < mt_used_relaxed s.mt_head s.mt_tail)
    (d : Nat) (hd : d < len) :
    (s.mt_tail + x) % 2 ^ k ≠ (s.mt_head + d) % 2 ^ k := by
  have hu := r.hused
  rw [r.free_eq] at hfree
  have hpos := head_eq_tail_add s.mt_head s.mt_tail r.hhead r.htail
  have e : (s.mt_head + d) % 2 ^ k
      = (s.mt_tail + (mt_used_relaxed s.mt_head s.mt_tail + d)) % 2 ^ k := by
    rw [← slot_shift (pow_dvd_u32 r.hk), ← hpos]
  rw [e]
  exact slot_ne s.mt_tail x _ (by omega) (by omega) (by omega)

/-- C19: a stale tail is safe.  On a ring with `head - tail ≤ C`, let `t'` be
a tail published earlier, `tail - t' ≤ head - t' ≤ C` (unsigned).  The free
space computed from `t'` is at most the free space computed from the current
tail.  A `mt_try_write` that the producer decides against `t'` and accepts is
accepted against the current tail as well and leaves the same state; the store
changes only at the slots `(head + d) mod C`, `d < len`; none of them is the
slot of a buffered byte `(tail + x) mod C`, `x < head - tail`, and the bytes
buffered from the current tail on are the earlier ones followed by the written
ones.  A `memtrace_emit_run` decided against `t'` that publishes its run
publishes it against the current tail as well, at the same head, and then the
bytes buffered from the current tail on are the earlier ones followed by the
records of the run. -/
theorem stale_tail_safe (s : State) (k : Nat) (buf : Mem) (r : Ring s k buf) (t' : Nat)
    (ht' : t' < 4294967296)
    (hstale : mt_used_relaxed s.mt_tail t' ≤ mt_used_relaxed s.mt_head t')
    (hle : mt_used_relaxed s.mt_head t' ≤ 2 ^ k) :
    mt_free { s with mt_tail := t' } ≤ mt_free s ∧
    (∀ (src : Mem) (len : Nat), (mt_try_write { s with mt_tail := t' } src len).1 = 1 →
      (mt_try_write s src len).1 = 1 ∧
      { (mt_try_write { s with mt_tail := t' } src len).2 with mt_tail := s.mt_tail }
        = (mt_try_write s src len).2 ∧
      (mt_try_write { s with mt_tail := t' } src len).2.mt_buf
        = some (mt_copy_in s.mt_mask buf s.mt_head src len) ∧
      (∀ j, (∀ d, d < len → (s.mt_head + d) % 2 ^ k ≠ j) →
        mt_copy_in s.mt_mask buf s.mt_head src len j = buf j) ∧
      (∀ x, x < mt_used_relaxed s.mt_head s.mt_tail → ∀ d, d < len →
        (s.mt_tail + x) % 2 ^ k ≠ (s.mt_head + d) % 2 ^ k) ∧
      visible { (mt_try_write { s with mt_tail := t' } src len).2 with mt_tail := s.mt_tail }
        = visible s ++ (List.range len).map src) ∧
    (∀ (addr : Nat) (src : Mem) (len cycles : Nat),
      (memtrace_emit_run { s with mt_tail := t' } addr src len cycles).mt_head ≠ s.mt_head →
      (memtrace_emit_run s addr src len cycles).mt_head
        = (memtrace_emit_run { s with mt_tail := t' } addr src len cycles).mt_head ∧
      (memtrace_emit_run s addr src len cycles).mt_head ≠ s.mt_head ∧
      visible { memtrace_emit_run { s with mt_tail := t' } addr src len cycles with
                mt_tail := s.mt_tail }
        = visible s ++ run_records addr src len cycles) := by
  have h31 := pow_le_u31 r.hk
  have hu := r.hused
  have hh := r.hhead
  have ht := r.htail
  have r' := stale_view_ring r t' ht' hle
  have hfle := stale_free_le r t' ht' hstale hle
  obtain ⟨hsplit, htail⟩ := stale_used_split r t' ht' hstale hle
  refine ⟨hfle, ?_, ?_⟩
  · intro src len hacc
    have hfree' : len < mt_free { s with mt_tail := t' } := by
      rcases Nat.lt_or_ge len (mt_free { s with mt_tail := t' }) with h | h
      · exact h
      · rw [mt_try_write_reject _ buf src len r'.hbuf h] at hacc
        exact absurd hacc Nat.zero_ne_one
    have hfree : len < mt_free s := by omega
    have e' := mt_try_write_accept _ buf src len r'.hbuf hfree'
    have e := mt_try_write_accept s buf src len r.hbuf hfree
    have hlen : len ≤ 2 ^ k := by rw [r.free_eq] at hfree; omega
    refine ⟨by rw [e], ?_, by rw [e'], ?_, ?_, ?_⟩
    · rw [e, e']
    · intro j hj
      rw [r.hmask]
      exact copy_in_miss k r.hk1 r.hk buf s.mt_head src len j hlen hj
    · intro x hx d hd
      exact write_slots_free r len hfree x hx d hd
    · have e2 : { (mt_try_write { s with mt_tail := t' } src len).2 with mt_tail := s.mt_tail }
          = (mt_try_write s src len).2 := by rw [e, e']
      rw [e2, e]
      exact (try_write_accept_ring r src len hfree).2
  · intro addr src len cycles hmoved
    by_cases hen : s.mt_enabled = 0 ∨ len = 0
    · exfalso
      apply hmoved
      unfold memtrace_emit_run
      rw [if_pos hen]
    · have hen' : s.mt_enabled ≠ 0 := fun h => hen (Or.inl h)
      have hlen : 1 ≤ len := by
        rcases Nat.eq_zero_or_pos len with h | h
        · exact absurd (Or.inr h) hen
        · exact h
      obtain ⟨b1, hfit1, hdrop1⟩ := emit_run_ring r' hen' addr src len cycles hlen
      obtain ⟨b2, hfit2, _⟩ := emit_run_ring r hen' addr src len cycles hlen
      have hfree' : len + 12 * run_chunks len < mt_free { s with mt_tail := t' } := by
        rcases Nat.lt_or_ge (len + 12 * run_chunks len) (mt_free { s with mt_tail := t' })
          with h | h
        · exact h
        · exfalso
          apply hmoved
          rw [(hdrop1 h).1]
      have hfree : len + 12 * run_chunks len < mt_free s := by omega
      obtain ⟨e1, hr1, hv1⟩ := hfit1 hfree'
      obtain ⟨e2, _, _⟩ := hfit2 hfree
      have hfe := r.free_eq
      have hfe' := r'.free_eq
      have hfe2 : mt_free { s with mt_tail := t' } = 2 ^ k - mt_used_relaxed s.mt_head t' := hfe'
      refine ⟨by rw [e1, e2], ?_, ?_⟩
      · rw [e2]
        show (s.mt_head + (len + 12 * run_chunks len)) % 4294967296 ≠ s.mt_head
        omega
      · rw [hr1.visible_eq, r'.visible_eq] at hv1
        rw [e1] at hv1 ⊢
        have hv2 : ringList (2 ^ k - 1) b1 t'
            (mt_used_relaxed ((s.mt_head + (len + 12 * run_chunks len)) % 4294967296) t')
            = ringList (2 ^ k - 1) buf t' (mt_used_relaxed s.mt_head t')
                ++ run_records addr src len cycles := hv1
        have hd := congrArg (List.drop (mt_used_relaxed s.mt_tail t')) hv2
        rw [ringList_drop, List.drop_append_of_le_length (by rw [ringList_length]; omega),
          ringList_drop, ← htail] at hd
        rw [r.visible_eq]
        unfold visible
        show ringList s.mt_mask b1 s.mt_tail
          (mt_used_relaxed ((s.mt_head + (len + 12 * run_chunks len)) % 4294967296) s.mt_tail)
          = _
        rw [r.hmask]
        have hl1 := stale_used_after s.mt_head s.mt_tail t' (len + 12 * run_chunks len) (2 ^ k)
          hh ht ht' h31 hstale hle (by rw [← hfe2]; exact hfree')
        have hl2 : mt_used_relaxed s.mt_head t' - mt_used_relaxed s.mt_tail t'
            = mt_used_relaxed s.mt_head s.mt_tail := by omega
        rw [hl1, hl2] at hd
        exact hd

/-- The ring of `ring32_wrapped` seen through the tail 20 that was current four
bytes of draining earlier: 8 bytes look free instead of 12. -/
theorem stale_tail_safe_witness :
    20 < 4294967296 ∧
    mt_used_relaxed ring32_wrapped.mt_tail 20 ≤ mt_used_relaxed ring32_wrapped.mt_head 20 ∧
    mt_used_relaxed ring32_wrapped.mt_head 20 ≤ 2 ^ 5 ∧
    mt_free { ring32_wrapped with mt_tail := 20 } = 8 ∧ mt_free ring32_wrapped = 12 ∧
    mt_free { ring32_wrapped with mt_tail := 20 } ≤ mt_free ring32_wrapped :=
  ⟨by decide, by decide, by decide, by decide, by decide,
   (stale_tail_safe ring32_wrapped 5 _ ring32_wrapped_ring 20 (by decide) (by decide)
      (by decide)).1⟩

/-- C20: `memtrace_emit_run` is one ring write of the whole serialised run.  On
an enabled ring with `head - tail ≤ C`, `C = 2 ^ k ≤ 2 ^ 31`, and a run of
`len ≥ 1` bytes, the serialised run `run_records` is
`len + 12 * ceil(len / 1024)` bytes long; the chunk loop publishes a new head
exactly when `len + 12 * ceil(len / 1024) < C - (head - tail)`, the sum taken
as a natural number, and `mt_try_write` of the serialised run with that length
returns 1 under exactly the same condition.  In both cases head, tail, drop
counter, the buffered bytes and what any drain returns are the same after
`memtrace_emit_run` as after the single write. -/
theorem emit_run_refines_single_write (s : State) (k : Nat) (buf : Mem) (r : Ring s k buf)
    (hen : s.mt_enabled ≠ 0) (addr : Nat) (src : Mem) (len cycles : Nat) (hlen : 1 ≤ len) :
    (run_records addr src len cycles).length = len + 12 * ((len + 1023) / 1024) ∧
    ((memtrace_emit_run s addr src len cycles).mt_head ≠ s.mt_head ↔
      len + 12 * ((len + 1023) / 1024) < 2 ^ k - mt_used_relaxed s.mt_head s.mt_tail) ∧
    ((mt_try_write s (ptr (run_records addr src len cycles))
        (len + 12 * ((len + 1023) / 1024))).1 = 1 ↔
      len + 12 * ((len + 1023) / 1024) < 2 ^ k - mt_used_relaxed s.mt_head s.mt_tail) ∧
    (memtrace_emit_run s addr src len cycles).mt_head
      = (mt_try_write s (ptr (run_records addr src len cycles))
          (len + 12 * ((len + 1023) / 1024))).2.mt_head ∧
    (memtrace_emit_run s addr src len cycles).mt_tail
      = (mt_try_write s (ptr (run_records addr src len cycles))
          (len + 12 * ((len + 1023) / 1024))).2.mt_tail ∧
    (memtrace_emit_run s addr src len cycles).mt_dropped
      = (mt_try_write s (ptr (run_records addr src len cycles))
          (len + 12 * ((len + 1023) / 1024))).2.mt_dropped ∧
    visible (memtrace_emit_run s addr src len cycles)
      = visible (mt_try_write s (ptr (run_records addr src len cycles))
          (len + 12 * ((len + 1023) / 1024))).2 ∧
    ∀ max_bytes, (memtrace_drain (memtrace_emit_run s addr src len cycles) max_bytes).dst
      = (memtrace_drain (mt_try_write s (ptr (run_records addr src len cycles))
          (len + 12 * ((len + 1023) / 1024))).2 max_bytes).dst := by
  have h31 := pow_le_u31 r.hk
  have hu := r.hused
  have hh := r.hhead
  have hf := r.free_eq
  have hL := run_records_length addr src len cycles
  have hc : run_chunks len = (len + 1023) / 1024 := rfl
  rw [hc] at hL
  obtain ⟨buf', hfit, hdrop⟩ := emit_run_ring r hen addr src len cycles hlen
  rw [hc] at hfit hdrop
  rcases Nat.lt_or_ge (len + 12 * ((len + 1023) / 1024)) (mt_free s) with hfree | hfree
  · obtain ⟨e, hr, hv⟩ := hfit hfree
    have ew := mt_try_write_accept s buf (ptr (run_records addr src len cycles))
      (len + 12 * ((len + 1023) / 1024)) r.hbuf hfree
    obtain ⟨hr2, hv2⟩ := try_write_accept_ring r (ptr (run_records addr src len cycles))
      (len + 12 * ((len + 1023) / 1024)) hfree
    have hmap : (List.range (len + 12 * ((len + 1023) / 1024))).map
        (ptr (run_records addr src len cycles)) = run_records addr src len cycles := by
      have := map_ptr_range (run_records addr src len cycles)
      rw [hL] at this
      exact this
    rw [hmap] at hv2
    have es : (mt_try_write s (ptr (run_records addr src len cycles))
        (len + 12 * ((len + 1023) / 1024))).2
        = { s with mt_buf := some (mt_copy_in s.mt_mask buf s.mt_head
                      (ptr (run_records addr src len cycles)) (len + 12 * ((len + 1023) / 1024))),
                   mt_head := (s.mt_head + (len + 12 * ((len + 1023) / 1024))) % 4294967296 } := by
      rw [ew]
    rw [← es] at hr2 hv2
    have hvv : visible (memtrace_emit_run s addr src len cycles)
        = visible (mt_try_write s (ptr (run_records addr src len cycles))
            (len + 12 * ((len + 1023) / 1024))).2 := by rw [hv, hv2]
    refine ⟨hL, ?_, ?_, by rw [e, ew], by rw [e, ew], by rw [e, ew], hvv, ?_⟩
    · rw [← hf]
      refine ⟨fun _ => hfree, fun _ => ?_⟩
      rw [e]
      show (s.mt_head + (len + 12 * ((len + 1023) / 1024))) % 4294967296 ≠ s.mt_head
      omega
    · rw [← hf, ew]
      exact ⟨fun _ => hfree, fun _ => rfl⟩
    · intro m
      rw [(drain_spec hr m).2.1, (drain_spec hr2 m).2.1, hvv]
  · obtain ⟨e, hr, hv⟩ := hdrop hfree
    have ew := mt_try_write_reject s buf (ptr (run_records addr src len cycles))
      (len + 12 * ((len + 1023) / 1024)) r.hbuf hfree
    obtain ⟨hr2, hv2⟩ := drop_ring r ((s.mt_dropped + 1) % 18446744073709551616)
    have es : (mt_try_write s (ptr (run_records addr src len cycles))
        (len + 12 * ((len + 1023) / 1024))).2
        = { s with mt_dropped := (s.mt_dropped + 1) % 18446744073709551616 } := by
      rw [ew]
    rw [← es] at hr2 hv2
    have hvv : visible (memtrace_emit_run s addr src len cycles)
        = visible (mt_try_write s (ptr (run_records addr src len cycles))
            (len + 12 * ((len + 1023) / 1024))).2 := by rw [hv, hv2]
    refine ⟨hL, ?_, ?_, by rw [e, ew], by rw [e, ew], by rw [e, ew], hvv, ?_⟩
    · rw [← hf]
      refine ⟨fun hne => ?_, fun hlt => ?_⟩
      · exfalso; apply hne; rw [e]
      · omega
    · rw [← hf, ew]
      refine ⟨fun h01 => absurd h01 Nat.zero_ne_one, fun hlt => ?_⟩
      omega
    · intro m
      rw [(drain_spec hr m).2.1, (drain_spec hr2 m).2.1, hvv]

/-- A 1500-byte run on the 4096-byte ring holding 1100 bytes is 1524 bytes on
the wire and fits the 2996 free bytes: the loop and the single write both move
the head to 2624. -/
theorem emit_run_refines_single_write_witness :
    Ring ring4096 12 (fun j => j % 251) ∧ ring4096.mt_enabled ≠ 0 ∧ 1 ≤ 1500 ∧
    (run_records 0xD00000 (fun j => j % 256) 1500 77).length = 1500 + 12 * ((1500 + 1023) / 1024) ∧
    (memtrace_emit_run ring4096 0xD00000 (fun j => j % 256) 1500 77).mt_head
      = (mt_try_write ring4096 (ptr (run_records 0xD00000 (fun j => j % 256) 1500 77))
          (1500 + 12 * ((1500 + 1023) / 1024))).2.mt_head ∧
    (mt_try_write ring4096 (ptr (run_records 0xD00000 (fun j => j % 256) 1500 77))
          (1500 + 12 * ((1500 + 1023) / 1024))).2.mt_head = 2624 :=
  ⟨ring4096_ring, by decide, by decide,
   (emit_run_refines_single_write ring4096 12 _ ring4096_ring (by decide) 0xD00000
      (fun j => j % 256) 1500 77 (by decide)).1,
   (emit_run_refines_single_write ring4096 12 _ ring4096_ring (by decide) 0xD00000
      (fun j => j % 256) 1500 77 (by decide)).2.2.2.1,
   by decide⟩

end Memtrace
